import Mathlib

/-!
Verification of the generic filesystem walker (`GenericWalk`, `walk`,
`readDirInfos` from `filesystem/common.go`) and of the spec-level
squashfs finalize/read round trip of the Ardelean-Calin/go-diskfs
repository.

Paths are modelled as segment lists (`["a","b"]` stands for `/a/b`), Go
`error` values as `Option Err` (with `none` for `nil`), and the walker is
embedded with an explicit fuel parameter: a result of `none` means the
fuel ran out before the recursion finished, `some (tr, r)` means the walk
finished returning error `r` after invoking the callback exactly on the
events listed in `tr`, in order.
-/

namespace GoDiskfs

/-- Model of Go `fs.FileInfo` as consumed by the walker: only `Name()` and
`IsDir()` are ever consulted. -/
structure FileInfo where
  name : String
  isDir : Bool
deriving DecidableEq, Repr

/-- Model of the Go `error` values the walker distinguishes: the sentinels
`SkipDir` (= `fs.SkipDir`) and `SkipAll` (= `fs.SkipAll`), and all other
errors, tagged by a message. A possibly-`nil` Go `error` is `Option Err`,
with `none` for `nil`. -/
inductive Err where
  | skipDir
  | skipAll
  | other (msg : String)
deriving DecidableEq, Repr

/-- Paths as segment lists; `[]` is the filesystem root `/`. -/
abbrev Path := List String

/-- Model of the `FileSystem` interface as consumed by the walker: the only
method used is `ReadDir`. -/
abbrev FileSystem := Path → Except Err (List FileInfo)

/-- Model of `WalkFunc`: the callback receives the path, the entry info
(`none` exactly in the root read-error case) and a possibly-nil error, and
returns a possibly-nil error. -/
abbrev WalkFunc := Path → Option FileInfo → Option Err → Option Err

/-- One callback invocation, i.e. the argument triple some call of the
`WalkFunc` received. -/
structure Event where
  path : Path
  info : Option FileInfo
  err : Option Err
deriving DecidableEq, Repr

/-- Models `filepath.Join(dir, name)` on segment paths for slash-free entry
names: `Join` cleans its result, so joining `"."` returns `dir` unchanged and
joining `".."` drops the last segment of `dir`. -/
def filepathJoin (dir : Path) (name : String) : Path :=
  if name = "." then dir
  else if name = ".." then dir.dropLast
  else dir ++ [name]

/-- Models `strings.ToLower` on one character (ASCII case folding, which is
all the walker's comparator needs on the names that occur). -/
def lowerChar (c : Char) : Char :=
  if 'A' ≤ c ∧ c ≤ 'Z' then Char.ofNat (c.toNat + 32) else c

/-- The lowercased name as a list of code points: the key on which the
comparator of `readDirInfos` compares two entries (Go compares the
`strings.ToLower`-folded names bytewise, i.e. lexicographically). -/
def lowerKey (s : String) : List Nat := s.data.map (fun c => (lowerChar c).toNat)

/-- The strict comparison under which the comparator of `readDirInfos`
returns `-1`: `strings.ToLower(a.Name()) < strings.ToLower(b.Name())`. -/
def lowerLt (a b : FileInfo) : Bool := decide (lowerKey a.name < lowerKey b.name)

/-- Insertion step of the sort in `readDirInfos`: `a` is placed before the
first element `b` with `cmp a b < 0`, i.e. with `lowerLt a b`. -/
def sortInsert (a : FileInfo) : List FileInfo → List FileInfo
  | [] => [a]
  | b :: l => if lowerLt a b then a :: b :: l else b :: sortInsert a l

/-- Models `slices.SortFunc(dirs, cmp)` with the comparator of
`readDirInfos` (which returns `1` when `ToLower(a.Name()) >= ToLower(b.Name())`
and `-1` otherwise) as an insertion sort placing `a` before `b` exactly when
the comparator yields `-1`; ties (equal lowercased names), whose order
`slices.SortFunc` leaves unspecified, keep their input order here. -/
def sortFunc : List FileInfo → List FileInfo
  | [] => []
  | a :: l => sortInsert a (sortFunc l)

/-- Models `readDirInfos(f, dirname)`: reads the directory and returns the
entries sorted case-insensitively by name. -/
def readDirInfos (f : FileSystem) (dirname : Path) : Except Err (List FileInfo) :=
  match f dirname with
  | .error e => .error e
  | .ok dirs => .ok (sortFunc dirs)

/-- Combined argument of the mutually recursive pair `walk` / its entry loop:
`walkJ path info` is a call `walk(filesystem, path, info, walkFn)`, and
`loopJ path errCur infos` is the loop over the remaining entries `infos` of
the directory `path`, with `errCur` the current value of the loop-carried
local variable `err` of the Go code. -/
inductive Job where
  | walkJ (path : Path) (info : FileInfo)
  | loopJ (path : Path) (errCur : Option Err) (infos : List FileInfo)

/-- The mutual recursion of `walk` and its entry loop, with one unit of fuel
consumed per step so that the recursion is structural on the fuel. A result
of `none` means the fuel ran out. -/
def run (fuel : Nat) (fs : FileSystem) (walkFn : WalkFunc) :
    Job → Option (List Event × Option Err) :=
  match fuel with
  | 0 => fun _ => none
  | fuel + 1 => fun job =>
    match job with
    | .walkJ path info =>
      if !info.isDir then
        some ([⟨path, some info, none⟩], walkFn path (some info) none)
      else
        match readDirInfos fs path with
        | .error e =>
          some ([⟨path, some info, some e⟩], walkFn path (some info) (some e))
        | .ok infos =>
          match walkFn path (some info) none with
          | some e1 => some ([⟨path, some info, none⟩], some e1)
          | none =>
            match run fuel fs walkFn (.loopJ path none infos) with
            | none => none
            | some (tr, r) => some (⟨path, some info, none⟩ :: tr, r)
    | .loopJ _ _ [] => some ([], none)
    | .loopJ path errCur (fi :: rest) =>
      if fi.name = "." ∨ fi.name = ".." then
        run fuel fs walkFn (.loopJ path errCur rest)
      else
        match errCur with
        | some e =>
          let r := walkFn (filepathJoin path fi.name) (some fi) (some e)
          if r ≠ none ∧ r ≠ some .skipDir then
            some ([⟨filepathJoin path fi.name, some fi, some e⟩], r)
          else
            match run fuel fs walkFn (.loopJ path (some e) rest) with
            | none => none
            | some (tr, r2) =>
              some (⟨filepathJoin path fi.name, some fi, some e⟩ :: tr, r2)
        | none =>
          match run fuel fs walkFn (.walkJ (filepathJoin path fi.name) fi) with
          | none => none
          | some (tr, r) =>
            match r with
            | none =>
              match run fuel fs walkFn (.loopJ path none rest) with
              | none => none
              | some (tr2, r2) => some (tr ++ tr2, r2)
            | some e =>
              if !fi.isDir ∨ e ≠ .skipDir then
                some (tr, some e)
              else
                match run fuel fs walkFn (.loopJ path (some .skipDir) rest) with
                | none => none
                | some (tr2, r2) => some (tr ++ tr2, r2)

/-- Models `walk(filesystem, path, info, walkFn)`. Returns the ordered list
of callback invocations together with the error `walk` returns, or `none`
when the fuel is exhausted before the recursion bottoms out. -/
def walk (fuel : Nat) (fs : FileSystem) (path : Path) (info : FileInfo)
    (walkFn : WalkFunc) : Option (List Event × Option Err) :=
  run fuel fs walkFn (.walkJ path info)

/-- Models the entry loop of `walk` over the remaining entries `infos`. -/
def walkLoop (fuel : Nat) (fs : FileSystem) (path : Path) (walkFn : WalkFunc)
    (errCur : Option Err) (infos : List FileInfo) : Option (List Event × Option Err) :=
  run fuel fs walkFn (.loopJ path errCur infos)

/-- Models the loop of `GenericWalk` over the root entries: note that it does
not filter `"."`/`".."`, continues past non-sentinel errors, and returns `nil`
as soon as some entry's walk returns `SkipDir` or `SkipAll`. `errCur` is the
loop-carried variable `err`, overwritten each iteration and returned once the
loop runs out of entries. -/
def genericWalkLoop (fuel : Nat) (fs : FileSystem) (root : Path) (fn : WalkFunc) :
    Option Err → List FileInfo → Option (List Event × Option Err)
  | errCur, [] => some ([], errCur)
  | _, i :: rest =>
    match walk fuel fs (filepathJoin root i.name) i fn with
    | none => none
    | some (tr, r) =>
      if r = some .skipDir ∨ r = some .skipAll then
        some (tr, none)
      else
        match genericWalkLoop fuel fs root fn r rest with
        | none => none
        | some (tr2, r2) => some (tr ++ tr2, r2)

/-- Models `GenericWalk(filesystem, root, fn)`: on a root read error the
callback is invoked once with a `nil` info and the error, and whatever it
returns becomes the result; otherwise the sorted root entries are walked. -/
def GenericWalk (fuel : Nat) (fs : FileSystem) (root : Path) (fn : WalkFunc) :
    Option (List Event × Option Err) :=
  match readDirInfos fs root with
  | .error e => some ([⟨root, none, some e⟩], fn root none (some e))
  | .ok infos => genericWalkLoop fuel fs root fn none infos

/-- A name that the walker's entry loop does not filter out. -/
def dotFree (n : String) : Prop := n ≠ "." ∧ n ≠ ".."

/-- Shape of every event produced by the entry loop of a directory `p`:
the callback argument info is a dot-free entry, and the event's path extends
`p` by a dot-free segment. -/
def goodEv (p : Path) (ev : Event) : Prop :=
  (∃ fi, ev.info = some fi ∧ dotFree fi.name) ∧
  ∃ n u, dotFree n ∧ ev.path = p ++ [n] ++ u

/-- Trace shape statement for each kind of job: a `walk` call's trace starts
with the event for the walked entry itself, followed by entry-loop events;
an entry-loop trace consists of entry-loop events only. -/
def jobShape : Job → List Event → Prop
  | .walkJ path info, tr =>
    ∃ e0 rest, tr = ⟨path, some info, e0⟩ :: rest ∧ ∀ ev ∈ rest, goodEv path ev
  | .loopJ path _ _, tr => ∀ ev ∈ tr, goodEv path ev

/-- Example filesystem whose root directory `/r` lists `"."` and `".."`
entries (as non-directories) next to a real subdirectory `a`, and whose
subdirectory `a` also lists a `"."` entry next to a file `b`. -/
def dotRootFS : FileSystem := fun p =>
  if p = ["r"] then .ok [⟨".", false⟩, ⟨"..", false⟩, ⟨"a", true⟩]
  else if p = ["r", "a"] then .ok [⟨".", false⟩, ⟨"b", false⟩]
  else .error (.other "not found")

/-- The callback that always returns nil. -/
def nilFn : WalkFunc := fun _ _ _ => none

/-- The callback that always returns the `SkipDir` sentinel. -/
def skipDirFn : WalkFunc := fun _ _ _ => some .skipDir

/-- Example filesystem where every `ReadDir` call fails. -/
def failFS : FileSystem := fun _ => .error (.other "boom")

/-- Whether an event's path is a direct child of `p`: exactly one segment
longer than `p` and extending it. Used to pick, out of a walk's trace, the
callback invocations for the immediate entries of the directory `p`. -/
def childEv (p : Path) (ev : Event) : Bool :=
  (ev.path.length == p.length + 1) && (ev.path.take p.length == p)

/-- The entry infos of the direct-child callback invocations of `p`,
in invocation order. -/
def siblingInfos (p : Path) (tr : List Event) : List FileInfo :=
  (tr.filter (childEv p)).filterMap Event.info

/-- Example filesystem whose root listing is not sorted. -/
def unsortedFS : FileSystem := fun p =>
  if p = ["r"] then .ok [⟨"b", false⟩, ⟨"A", true⟩, ⟨"aa", false⟩]
  else if p = ["r", "A"] then .ok []
  else .error (.other "nf")

/-- Whether the (pure) callback returns the `SkipAll` sentinel when invoked
with the arguments recorded in the event. -/
def returnsSkipAll (fn : WalkFunc) (ev : Event) : Prop :=
  fn ev.path ev.info ev.err = some .skipAll

/-- Example filesystem with a flat root of three files. -/
def fsABC : FileSystem := fun p =>
  if p = ["r"] then .ok [⟨"a", false⟩, ⟨"b", false⟩, ⟨"c", false⟩]
  else .error (.other "nf")

/-- Callback returning `SkipAll` exactly at `/r/b`. -/
def skipAllAtB : WalkFunc := fun p _ _ =>
  if p = ["r", "b"] then some .skipAll else none

/-- Example filesystem `/r` with one directory `P` containing a directory
`d`, a file `e` and a directory `f` (in sorted order `d`, `e`, `f`). -/
def skipDirDemoFS : FileSystem := fun p =>
  if p = ["r"] then .ok [⟨"P", true⟩]
  else if p = ["r", "P"] then .ok [⟨"f", true⟩, ⟨"d", true⟩, ⟨"e", false⟩]
  else if p = ["r", "P", "d"] then .ok []
  else if p = ["r", "P", "f"] then .ok []
  else .error (.other "nf")

/-- Callback returning `SkipDir` exactly when visiting the directory
`/r/P/d` itself (nil error), and nil everywhere else. -/
def skipDirAtD : WalkFunc := fun p _ e =>
  if p = ["r", "P", "d"] ∧ e = none then some .skipDir else none

/-- Example filesystem `/r` containing a directory `d` and a file `e`. -/
def rootSkipFS : FileSystem := fun p =>
  if p = ["r"] then .ok [⟨"d", true⟩, ⟨"e", false⟩]
  else if p = ["r", "d"] then .ok []
  else .error (.other "nf")

/-- Callback returning `SkipDir` exactly when visiting the directory `/r/d`. -/
def skipDirAtRootD : WalkFunc := fun p _ e =>
  if p = ["r", "d"] ∧ e = none then some .skipDir else none

/-- Whether a name is kept by the walker's dot filter. -/
def dotFreeB (n : String) : Bool := !(n == ".") && !(n == "..")

/-- Whether a list of names has no duplicates. -/
def namesNodupB : List String → Bool
  | [] => true
  | n :: rest => !(rest.contains n) && namesNodupB rest

mutual
/-- A finite acyclic filesystem tree entry: a file (any non-directory entry)
or a directory with a forest of entries. -/
inductive FTree where
  | file (name : String)
  | dir (name : String) (children : FForest)
/-- A finite forest of filesystem tree entries. -/
inductive FForest where
  | nil
  | cons (t : FTree) (rest : FForest)
end

/-- The entries of a forest as a list. -/
def FForest.toList : FForest → List FTree
  | .nil => []
  | .cons t rest => t :: rest.toList

/-- The name of a tree entry. -/
def FTree.name : FTree → String
  | .file n => n
  | .dir n _ => n

/-- Whether a tree entry is a directory. -/
def FTree.isDir : FTree → Bool
  | .file _ => false
  | .dir _ _ => true

/-- The `FileInfo` a `ReadDir` of the parent reports for this entry. -/
def FTree.info (t : FTree) : FileInfo := ⟨t.name, t.isDir⟩

/-- The child entries of a tree entry (empty for files). -/
def childrenOf : FTree → List FTree
  | .file _ => []
  | .dir _ cs => cs.toList

mutual
/-- Number of `run` steps needed to walk this entry. -/
def treeCost : FTree → Nat
  | .file _ => 1
  | .dir _ cs => 1 + forestCost cs
/-- Number of `run` steps needed by the entry loop over this forest. -/
def forestCost : FForest → Nat
  | .nil => 1
  | .cons t rest => 1 + treeCost t + forestCost rest
end

/-- Number of `run` steps needed by the entry loop over this list of trees. -/
def listCost : List FTree → Nat
  | [] => 1
  | t :: rest => 1 + treeCost t + listCost rest

mutual
/-- Well-formedness of a tree entry: all names dot-free and sibling names
distinct in every directory. -/
def wfTree : FTree → Bool
  | .file n => dotFreeB n
  | .dir n cs => dotFreeB n && wfForest cs && namesNodupB (cs.toList.map FTree.name)
/-- Well-formedness of every entry of a forest. -/
def wfForest : FForest → Bool
  | .nil => true
  | .cons t rest => wfTree t && wfForest rest
end

/-- Well-formedness of a whole root forest. -/
def wfTrees (ts : List FTree) : Bool :=
  ts.all wfTree && namesNodupB (ts.map FTree.name)

/-- First entry of the list with the given name. -/
def findTree (n : String) : List FTree → Option FTree
  | [] => none
  | t :: rest => if t.name = n then some t else findTree n rest

/-- Resolve a relative path to the child list of the directory it denotes. -/
def lookupForest : List FTree → Path → Option (List FTree)
  | ts, [] => some ts
  | ts, n :: rest =>
    match findTree n ts with
    | some (FTree.dir _ cs) => lookupForest cs.toList rest
    | _ => none

/-- Strip `root` from the front of `p`. -/
def dropRoot : Path → Path → Option Path
  | [], p => some p
  | _, [] => none
  | r :: rs, q :: qs => if r = q then dropRoot rs qs else none

/-- The filesystem backed by the forest `ts` mounted at `root`: `ReadDir`
succeeds exactly on the directories of the tree. -/
def fsOfTree (root : Path) (ts : List FTree) : FileSystem := fun p =>
  match dropRoot root p with
  | none => .error (.other "outside root")
  | some rel =>
    match lookupForest ts rel with
    | some cs => .ok (cs.map FTree.info)
    | none => .error (.other "not a directory")

mutual
/-- The paths of all entries of the tree entry `t`, its own first (pre-order,
in stored order), where `p` is the path of the parent directory. -/
def treePaths (p : Path) : FTree → List Path
  | .file n => [p ++ [n]]
  | .dir n cs => (p ++ [n]) :: forestPaths (p ++ [n]) cs
/-- The paths of all entries of the forest, in stored order. -/
def forestPaths (p : Path) : FForest → List Path
  | .nil => []
  | .cons t rest => treePaths p t ++ forestPaths p rest
end

/-- Insertion step of the entry sort, lifted to trees. -/
def sortTreeInsert (t : FTree) : List FTree → List FTree
  | [] => [t]
  | u :: l => if lowerLt t.info u.info then t :: u :: l else u :: sortTreeInsert t l

/-- The entry sort of `readDirInfos`, lifted to trees. -/
def sortTrees : List FTree → List FTree
  | [] => []
  | t :: l => sortTreeInsert t (sortTrees l)

/-- Example well-formed tree for witnesses: `/r` with a file `a` and a
directory `b` containing a file `c`. -/
def exampleTrees : List FTree :=
  [FTree.dir "b" (FForest.cons (FTree.file "c") FForest.nil), FTree.file "a"]

/-- Pre-order discipline on a list of visited paths: whenever both a path and
a proper extension of it are in the list, the shorter one occurs earlier
(the two-element list embeds in order). -/
def properOrder (l : List Path) : Prop :=
  ∀ q ∈ l, ∀ q' ∈ l, (∃ u, u ≠ [] ∧ q' = q ++ u) → List.Sublist [q, q'] l

-- ============== Squashfs finalize/read model (C6) ==============

/-- A pluggable compression capability: `compress(bytes) -> bytes`. Bytes are
modelled as natural numbers. -/
abbrev Codec := List Nat → List Nat

mutual
/-- Modelled from the spec: a `StagingNode` of the squashfs staging tree (the
squashfs implementation itself is not among the sources, only its tests) — a
tagged variant of a regular file with its written bytes, a symlink with its
literal target string, or a directory owning named children. -/
inductive SNode where
  | file (content : List Nat)
  | symlink (target : String)
  | dir (children : SList)
/-- Modelled from the spec: the named children of a staging directory. -/
inductive SList where
  | nil
  | cons (name : String) (node : SNode) (rest : SList)
end

/-- Modelled from the spec: an `InodeRecord` of the finalized image — a
regular file with its data-block indices and optional fragment reference
`(fragment block index, intra-block offset, length)`, a directory with its
entry list `(name, inode index)`, or a symlink with its target string. -/
inductive InodeRec where
  | fileInode (blocks : List Nat) (frag : Option (Nat × Nat × Nat))
  | dirInode (entries : List (String × Nat))
  | symlinkInode (target : String)

/-- Modelled from the spec: the finalized image — the data-block arena, the
fragment-block arena, the inode arena and the root inode index. Each stored
block carries its compressed flag. -/
structure Image where
  blocks : List (Bool × List Nat)
  fragBlocks : List (Bool × List Nat)
  inodes : List InodeRec
  rootInode : Nat

/-- Modelled from the spec: the state of the finalizer while walking the
staging tree — the arenas built so far plus the shared fragment buffer into
which file tails are packed. -/
structure FinState where
  blocks : List (Bool × List Nat)
  fragBlocks : List (Bool × List Nat)
  fragBuf : List Nat
  inodes : List InodeRec

/-- Modelled from the spec: store one block, compressed exactly when the
compressed form is strictly smaller than the input, flagged accordingly. -/
def storeBlock (c : Codec) (chunk : List Nat) : Bool × List Nat :=
  let cb := c chunk
  if cb.length < chunk.length then (true, cb) else (false, chunk)

/-- Split the content into full `bs`-sized chunks plus the final partial
chunk, with a structural fuel equal to the content length. -/
def chunkify (bs : Nat) : Nat → List Nat → List (List Nat) × List Nat
  | 0, content => ([], content)
  | fuel + 1, content =>
    if bs ≤ content.length ∧ 0 < bs then
      let r := chunkify bs fuel (content.drop bs)
      (content.take bs :: r.1, r.2)
    else ([], content)

/-- Modelled from the spec: partition a file's bytes into `BlockSize`-sized
chunks in order; the final partial chunk (shorter than one block) is the
fragment candidate; a zero-length file and an exact multiple of the block
size leave no fragment. -/
def splitFull (bs : Nat) (content : List Nat) : List (List Nat) × List Nat :=
  chunkify bs content.length content

/-- Modelled from the spec: pack a file tail into the shared fragment
buffer, flushing the buffer into a compressed fragment block first when the
tail would not fit within the block-size capacity; returns the fragment
reference `(fragment block index, intra-block offset, length)`. -/
def addFrag (c : Codec) (bs : Nat) (st : FinState) (tail : List Nat) :
    FinState × (Nat × Nat × Nat) :=
  let st1 := if bs < st.fragBuf.length + tail.length then
      { st with fragBlocks := st.fragBlocks ++ [storeBlock c st.fragBuf], fragBuf := [] }
    else st
  ({ st1 with fragBuf := st1.fragBuf ++ tail },
   (st1.fragBlocks.length, st1.fragBuf.length, tail.length))

mutual
/-- Modelled from the spec: finalize one staging node depth-first — write a
file's data blocks and fragment, then its inode record; finalize a
directory's children before appending its own directory record; return the
node's inode index. -/
def finNode (c : Codec) (bs : Nat) : SNode → FinState → FinState × Nat
  | .file content, st =>
    let split := splitFull bs content
    let stored := split.1.map (storeBlock c)
    let idxs := (List.range split.1.length).map (fun k => st.blocks.length + k)
    let st1 : FinState := { st with blocks := st.blocks ++ stored }
    if split.2.length = 0 then
      ({ st1 with inodes := st1.inodes ++ [.fileInode idxs none] }, st1.inodes.length)
    else
      let flushed := addFrag c bs st1 split.2
      ({ flushed.1 with inodes := flushed.1.inodes ++ [.fileInode idxs (some flushed.2)] },
       flushed.1.inodes.length)
  | .symlink tgt, st =>
    ({ st with inodes := st.inodes ++ [.symlinkInode tgt] }, st.inodes.length)
  | .dir children, st =>
    let r := finList c bs children st
    ({ r.1 with inodes := r.1.inodes ++ [.dirInode r.2] }, r.1.inodes.length)
/-- Modelled from the spec: finalize the children of a directory in order,
collecting the `(name, inode index)` entry list. -/
def finList (c : Codec) (bs : Nat) : SList → FinState → FinState × List (String × Nat)
  | .nil, st => (st, [])
  | .cons name node rest, st =>
    let r1 := finNode c bs node st
    let r2 := finList c bs rest r1.1
    (r2.1, (name, r1.2) :: r2.2)
end

/-- Modelled from the spec: finalize the staged tree into an image — walk the
tree depth-first, then flush the remaining fragment buffer ("once no more
fragments remain") and assemble the image. -/
def finalize (c : Codec) (bs : Nat) (rootNode : SNode) : Image :=
  let r := finNode c bs rootNode ⟨[], [], [], []⟩
  ⟨r.1.blocks,
   if r.1.fragBuf.length = 0 then r.1.fragBlocks
   else r.1.fragBlocks ++ [storeBlock c r.1.fragBuf],
   r.1.inodes, r.2⟩

/-- Modelled from the spec: recover a stored block's bytes, decompressing
exactly when its flag says it was stored compressed. -/
def decodeBlock (d : Codec) (b : Bool × List Nat) : List Nat :=
  if b.1 then d b.2 else b.2

/-- Decode the blocks at the given indices, in order; fails if any index is
out of range. -/
def decodeAll (d : Codec) (blocks : List (Bool × List Nat)) : List Nat → Option (List (List Nat))
  | [] => some []
  | bi :: rest =>
    match blocks[bi]? with
    | none => none
    | some b => (decodeAll d blocks rest).map fun chunks => decodeBlock d b :: chunks

/-- Modelled from the spec: resolve a path, segment by segment, from an inode
index through directory entry lists (exact, case-sensitive name match). -/
def resolveInode (img : Image) : Nat → List String → Option Nat
  | i, [] => some i
  | i, n :: rest =>
    match img.inodes[i]? with
    | some (.dirInode entries) =>
      match List.lookup n entries with
      | some j => resolveInode img j rest
      | none => none
    | _ => none

/-- Modelled from the spec: `read_dir` — the entry names of the directory at
the path. -/
def readDirNames (img : Image) (p : List String) : Option (List String) :=
  (resolveInode img img.rootInode p).bind fun i =>
    match img.inodes[i]? with
    | some (.dirInode entries) => some (entries.map Prod.fst)
    | _ => none

/-- Modelled from the spec: read back a file's full byte content — decompress
each referenced data block in order and append the fragment slice read from
the owning fragment block. -/
def readFileContent (d : Codec) (img : Image) (p : List String) : Option (List Nat) :=
  (resolveInode img img.rootInode p).bind fun i =>
    match img.inodes[i]? with
    | some (.fileInode idxs frag) =>
      (decodeAll d img.blocks idxs).bind fun chunks =>
        match frag with
        | none => some chunks.flatten
        | some (fi, off, len) =>
          (img.fragBlocks[fi]?).map fun b =>
            chunks.flatten ++ (((decodeBlock d b).drop off).take len)
    | _ => none

/-- Modelled from the spec: `readlink` — the literal target string stored in
the symlink inode at the path. -/
def readLinkTarget (img : Image) (p : List String) : Option String :=
  (resolveInode img img.rootInode p).bind fun i =>
    match img.inodes[i]? with
    | some (.symlinkInode t) => some t
    | _ => none

/-- First child of a staging directory with the given name. -/
def findS (n : String) : SList → Option SNode
  | .nil => none
  | .cons m node rest => if m = n then some node else findS n rest

/-- Resolve a path in the staging tree (exact name match, no symlink
following). -/
def lookupS : SNode → List String → Option SNode
  | node, [] => some node
  | .dir children, n :: rest => (findS n children).bind fun m => lookupS m rest
  | .file _, _ :: _ => none
  | .symlink _, _ :: _ => none

/-- The child names of a staging directory, in stored order. -/
def namesOfS : SList → List String
  | .nil => []
  | .cons name _ rest => name :: namesOfS rest

/-- A read-only view of the arenas during finalization: data blocks, inodes,
and the decoded fragment data available per fragment-block index (including
the pending fragment buffer as the next, still-growing block). -/
structure View where
  blocks : List (Bool × List Nat)
  inodes : List InodeRec
  fdata : Nat → List Nat

/-- The decoded fragment data of `st` at index `fi`: a flushed block's
decoded bytes, or the pending buffer at the next index. -/
def fragData (d : Codec) (st : FinState) (fi : Nat) : List Nat :=
  match st.fragBlocks[fi]? with
  | some b => decodeBlock d b
  | none => if fi = st.fragBlocks.length then st.fragBuf else []

/-- The view of a finalization state. -/
def viewOf (d : Codec) (st : FinState) : View := ⟨st.blocks, st.inodes, fragData d st⟩

/-- The view of a finalized image. -/
def viewOfImage (d : Codec) (img : Image) : View :=
  ⟨img.blocks, img.inodes, fun fi =>
    match img.fragBlocks[fi]? with
    | some b => decodeBlock d b
    | none => []⟩

/-- Monotone extension of views: both arenas only grow at the end, and the
fragment data of every index only gets extended. -/
def ViewLE (v w : View) : Prop :=
  (∃ u, w.blocks = v.blocks ++ u) ∧ (∃ u, w.inodes = v.inodes ++ u) ∧
  (∀ fi, ∃ e, w.fdata fi = v.fdata fi ++ e)

/-- Decoded content of the data blocks at the given indices, concatenated. -/
def blocksBytesV (d : Codec) (v : View) (idxs : List Nat) : Option (List Nat) :=
  (decodeAll d v.blocks idxs).map List.flatten

mutual
/-- The inode at index `i` of the view faithfully represents the staging
node: same symlink target, same directory entry names with children
represented recursively, and for a file the referenced blocks and fragment
slice reassemble exactly the staged bytes. -/
def inodeGood (d : Codec) (v : View) : Nat → SNode → Prop
  | i, .file content => ∃ idxs frag, v.inodes[i]? = some (.fileInode idxs frag) ∧
      ∃ full, blocksBytesV d v idxs = some full ∧
        match frag with
        | none => content = full
        | some (fi, off, len) =>
            0 < len ∧ off + len ≤ (v.fdata fi).length ∧
            content = full ++ (((v.fdata fi).drop off).take len)
  | i, .symlink tgt => v.inodes[i]? = some (.symlinkInode tgt)
  | i, .dir children => ∃ entries, v.inodes[i]? = some (.dirInode entries) ∧
      entriesGood d v entries children
/-- The entry list faithfully represents the staging children, pointwise and
in order. -/
def entriesGood (d : Codec) (v : View) : List (String × Nat) → SList → Prop
  | [], .nil => True
  | [], .cons _ _ _ => False
  | _ :: _, .nil => False
  | (m, j) :: es, .cons name node rest =>
      m = name ∧ inodeGood d v j node ∧ entriesGood d v es rest
end

/-- A concrete staged tree exercising every case: a multi-block file with a
trailing fragment, an empty file, a symlink, and a nested directory whose
file shares the fragment buffer. -/
def demoTree : SNode :=
  .dir (.cons "big" (.file [1,2,3,4,5,6,7,8,9])
    (.cons "empty" (.file [])
    (.cons "link" (.symlink "big")
    (.cons "sub" (.dir (.cons "small" (.file [10,11]) .nil)) .nil))))

-- ===================== THEOREMS =====================

theorem filepathJoin_dotFree {p : Path} {n : String} (h : dotFree n) :
    filepathJoin p n = p ++ [n] := by
  obtain ⟨h1, h2⟩ := h
  simp [filepathJoin, h1, h2]

theorem goodEv_child {path : Path} {fi : FileInfo} (hfi : dotFree fi.name)
    {ev : Event} (h : goodEv (filepathJoin path fi.name) ev) : goodEv path ev := by
  obtain ⟨hinfo, n, u, hn, hp⟩ := h
  rw [filepathJoin_dotFree hfi] at hp
  exact ⟨hinfo, fi.name, [n] ++ u, hfi, by simp [hp]⟩

theorem run_shape : ∀ fuel fs fn job tr r,
    run fuel fs fn job = some (tr, r) → jobShape job tr := by
  intro fuel fs fn
  induction fuel with
  | zero => intro job tr r h; simp [run] at h
  | succ fuel IH =>
    rintro (⟨path, info⟩ | ⟨path, ec, _ | ⟨fi, rest⟩⟩) tr r h
    · -- walkJ
      simp only [run] at h
      split at h
      · -- not a directory
        obtain ⟨rfl, rfl⟩ := by simpa using h
        exact ⟨none, [], rfl, by simp⟩
      · split at h
        · -- ReadDir error
          obtain ⟨rfl, rfl⟩ := by simpa using h
          exact ⟨_, [], rfl, by simp⟩
        · split at h
          · -- callback returned non-nil on the directory itself
            obtain ⟨rfl, rfl⟩ := by simpa using h
            exact ⟨none, [], rfl, by simp⟩
          · -- callback returned nil; loop runs
            split at h
            · exact absurd h (by simp)
            · next tr' r' hrun =>
              obtain ⟨rfl, rfl⟩ := by simpa using h
              exact ⟨none, tr', rfl, IH _ _ _ hrun⟩
    · -- loopJ with no entries left
      obtain ⟨rfl, rfl⟩ := by simpa [run] using h
      simp [jobShape]
    · -- loopJ, entry fi
      simp only [run] at h
      split at h
      · -- "." or ".." entry: skipped
        exact IH (Job.loopJ path ec rest) tr r h
      · next hdot =>
        have hfi : dotFree fi.name := by
          constructor <;> (intro hc; exact hdot (by simp [hc]))
        intro ev0 hev0
        split at h
        · -- errCur = some e
          next e =>
          split at h
          · obtain ⟨rfl, rfl⟩ := by simpa using h
            simp only [List.mem_singleton] at hev0
            subst hev0
            exact ⟨⟨fi, rfl, hfi⟩, fi.name, [],
              hfi, by simp [filepathJoin_dotFree hfi]⟩
          · split at h
            · exact absurd h (by simp)
            · next tr2 r2 hrun2 =>
              obtain ⟨rfl, rfl⟩ := by simpa using h
              rcases List.mem_cons.mp hev0 with rfl | hev0
              · exact ⟨⟨fi, rfl, hfi⟩, fi.name, [],
                  hfi, by simp [filepathJoin_dotFree hfi]⟩
              · exact IH (Job.loopJ path (some e) rest) tr2 r2 hrun2 ev0 hev0
        · -- errCur = none: recursive walk into the entry
          split at h
          · exact absurd h (by simp)
          · next tr1 r1 hrun1 =>
            obtain ⟨e0, rest1, htr1, hrest1⟩ :=
              IH (Job.walkJ (filepathJoin path fi.name) fi) tr1 r1 hrun1
            have hall1 : ∀ ev ∈ tr1, goodEv path ev := by
              intro ev hev
              rw [htr1] at hev
              rcases List.mem_cons.mp hev with rfl | hev
              · exact ⟨⟨fi, rfl, hfi⟩, fi.name, [],
                  hfi, by simp [filepathJoin_dotFree hfi]⟩
              · exact goodEv_child hfi (hrest1 ev hev)
            split at h
            · -- child returned nil: loop continues
              split at h
              · exact absurd h (by simp)
              · next tr2 r2 hrun2 =>
                obtain ⟨rfl, rfl⟩ := by simpa using h
                rcases List.mem_append.mp hev0 with hev0 | hev0
                · exact hall1 ev0 hev0
                · exact IH (Job.loopJ path none rest) tr2 r2 hrun2 ev0 hev0
            · -- child returned an error
              split at h
              · obtain ⟨rfl, rfl⟩ := by simpa using h
                exact hall1 ev0 hev0
              · split at h
                · exact absurd h (by simp)
                · next tr2 r2 hrun2 =>
                  obtain ⟨rfl, rfl⟩ := by simpa using h
                  rcases List.mem_append.mp hev0 with hev0 | hev0
                  · exact hall1 ev0 hev0
                  · exact IH (Job.loopJ path (some .skipDir) rest) tr2 r2 hrun2 ev0 hev0

theorem walk_shape {fuel : Nat} {fs : FileSystem} {path : Path} {info : FileInfo}
    {fn : WalkFunc} {tr : List Event} {r : Option Err}
    (h : walk fuel fs path info fn = some (tr, r)) :
    ∃ e0 rest, tr = ⟨path, some info, e0⟩ :: rest ∧ ∀ ev ∈ rest, goodEv path ev :=
  run_shape fuel fs fn _ tr r h

theorem sortInsert_perm (a : FileInfo) (l : List FileInfo) :
    List.Perm (sortInsert a l) (a :: l) := by
  induction l with
  | nil => simp [sortInsert]
  | cons b l IH =>
    simp only [sortInsert]
    split
    · exact List.Perm.refl _
    · exact (IH.cons b).trans (List.Perm.swap a b l)

theorem sortFunc_perm (l : List FileInfo) : List.Perm (sortFunc l) l := by
  induction l with
  | nil => simp [sortFunc]
  | cons a l IH => exact (sortInsert_perm a (sortFunc l)).trans (IH.cons a)

/-- The non-decreasing order on lowercased names established by the sort. -/
def lowerLe (a b : FileInfo) : Prop := lowerKey a.name ≤ lowerKey b.name

theorem lowerLe_of_not_lowerLt {a b : FileInfo} (h : ¬lowerLt a b = true) : lowerLe b a := by
  simp only [lowerLt, decide_eq_true_eq] at h
  exact le_of_not_lt h

theorem sortInsert_sorted {a : FileInfo} {l : List FileInfo}
    (h : List.Pairwise lowerLe l) : List.Pairwise lowerLe (sortInsert a l) := by
  induction l with
  | nil => simp [sortInsert]
  | cons b l IH =>
    simp only [sortInsert]
    split
    · next hab =>
      refine List.Pairwise.cons ?_ h
      intro c hc
      rcases List.mem_cons.mp hc with rfl | hc
      · exact le_of_lt (by simpa [lowerLt] using hab)
      · exact le_trans (le_of_lt (by simpa [lowerLt] using hab))
          ((List.pairwise_cons.mp h).1 c hc)
    · next hab =>
      rw [List.pairwise_cons] at h
      refine List.Pairwise.cons ?_ (IH h.2)
      intro c hc
      rcases List.mem_cons.mp (((sortInsert_perm a l).mem_iff).mp hc) with rfl | hc
      · exact lowerLe_of_not_lowerLt hab
      · exact h.1 c hc

theorem sortFunc_sorted (l : List FileInfo) : List.Pairwise lowerLe (sortFunc l) := by
  induction l with
  | nil => simp [sortFunc]
  | cons a l IH => exact sortInsert_sorted IH

/-- Shape of events produced by the loop of `GenericWalk` when every root
entry name is dot-free: each event carries a real entry info and a path
strictly below the root. -/
theorem genericWalkLoop_shape {fuel : Nat} {fs : FileSystem} {root : Path}
    {fn : WalkFunc} :
    ∀ {infos : List FileInfo} {ec : Option Err} {tr : List Event} {r : Option Err},
    (∀ i ∈ infos, dotFree i.name) →
    genericWalkLoop fuel fs root fn ec infos = some (tr, r) →
    ∀ ev ∈ tr, (∃ fi, ev.info = some fi) ∧ ∃ n u, dotFree n ∧ ev.path = root ++ [n] ++ u := by
  intro infos
  induction infos with
  | nil =>
    intro ec tr r _ h
    simp only [genericWalkLoop, Option.some.injEq, Prod.mk.injEq] at h
    obtain ⟨rfl, rfl⟩ := h
    simp
  | cons i rest IH =>
    intro ec tr r hdf h
    have hi : dotFree i.name := hdf i (by simp)
    simp only [genericWalkLoop] at h
    have hchild : ∀ tr1 r1, walk fuel fs (filepathJoin root i.name) i fn = some (tr1, r1) →
        ∀ ev ∈ tr1, (∃ fi, ev.info = some fi) ∧ ∃ n u, dotFree n ∧ ev.path = root ++ [n] ++ u := by
      intro tr1 r1 h1 ev hev
      obtain ⟨e0, rest1, htr1, hrest1⟩ := walk_shape h1
      rw [htr1] at hev
      rcases List.mem_cons.mp hev with rfl | hev
      · exact ⟨⟨i, rfl⟩, i.name, [], hi, by simp [filepathJoin_dotFree hi]⟩
      · obtain ⟨⟨fi, hinfo, _⟩, n, u, hn, hp⟩ := hrest1 ev hev
        rw [filepathJoin_dotFree hi] at hp
        exact ⟨⟨fi, hinfo⟩, i.name, [n] ++ u, hi, by simp [hp]⟩
    split at h
    · exact absurd h (by simp)
    · next tr1 r1 h1 =>
      split at h
      · obtain ⟨rfl, rfl⟩ := by simpa using h
        exact hchild tr1 r1 h1
      · split at h
        · exact absurd h (by simp)
        · next tr2 r2 h2 =>
          obtain ⟨rfl, rfl⟩ := by simpa using h
          intro ev hev
          rcases List.mem_append.mp hev with hev | hev
          · exact hchild tr1 r1 h1 ev hev
          · exact IH (fun j hj => hdf j (by simp [hj])) h2 ev hev

theorem readDirInfos_ok {fs : FileSystem} {p : Path} {dirs : List FileInfo}
    (h : readDirInfos fs p = .ok dirs) :
    ∃ raw, fs p = .ok raw ∧ dirs = sortFunc raw := by
  unfold readDirInfos at h
  split at h
  · exact absurd h (by simp)
  · next raw hraw => exact ⟨raw, hraw, by simpa using h.symm⟩

theorem childEv_self {p : Path} {n : String} {i : Option FileInfo} {e : Option Err} :
    childEv p ⟨p ++ [n], i, e⟩ = true := by
  simp [childEv, List.take_left]

theorem childEv_of_length {p : Path} {ev : Event} (h : ev.path.length ≠ p.length + 1) :
    childEv p ev = false := by
  simp only [childEv, Bool.and_eq_false_imp, beq_iff_eq]
  intro hlen
  exact absurd hlen h

/-- The direct-child events of `p` inside the trace of a walk of one dot-free
entry `fi` of `p` are exactly the entry's own event. -/
theorem walk_childEvents {fuel : Nat} {fs : FileSystem} {p : Path} {fi : FileInfo}
    {fn : WalkFunc} {tr1 : List Event} {r1 : Option Err} (hfi : dotFree fi.name)
    (h : walk fuel fs (filepathJoin p fi.name) fi fn = some (tr1, r1)) :
    ∃ e0, tr1.filter (childEv p) = [⟨p ++ [fi.name], some fi, e0⟩] := by
  obtain ⟨e0, rest, htr, hrest⟩ := walk_shape h
  refine ⟨e0, ?_⟩
  rw [htr, filepathJoin_dotFree hfi]
  rw [List.filter_cons_of_pos childEv_self]
  have hnil : List.filter (childEv p) rest = [] := by
    rw [List.filter_eq_nil_iff]
    intro ev hev
    obtain ⟨_, n, u, _, hp⟩ := hrest ev hev
    rw [filepathJoin_dotFree hfi] at hp
    have : childEv p ev = false := by
      refine childEv_of_length ?_
      rw [hp]
      simp
    simp [this]
  rw [hnil]

/-- Inside the entry loop of directory `p`, the infos passed to the callback
for direct children of `p` form a sublist (hence subsequence in order) of the
loop's entry list. -/
theorem loop_siblings : ∀ (fuel : Nat) (fs : FileSystem) (fn : WalkFunc) (p : Path)
    (ec : Option Err) (infos : List FileInfo) (tr : List Event) (r : Option Err),
    run fuel fs fn (.loopJ p ec infos) = some (tr, r) →
    ∃ vis, List.Sublist vis infos ∧ siblingInfos p tr = vis := by
  intro fuel fs fn
  induction fuel with
  | zero => intro p ec infos tr r h; simp [run] at h
  | succ fuel IH =>
    rintro p ec (_ | ⟨fi, rest⟩) tr r h
    · simp only [run, Option.some.injEq, Prod.mk.injEq] at h
      obtain ⟨rfl, rfl⟩ := h
      exact ⟨[], List.Sublist.refl _, rfl⟩
    · simp only [run] at h
      split at h
      · obtain ⟨vis, hsub, hsib⟩ := IH p ec rest tr r h
        exact ⟨vis, hsub.cons fi, hsib⟩
      · next hdot =>
        have hfi : dotFree fi.name := by
          constructor <;> (intro hc; exact hdot (by simp [hc]))
        split at h
        · next e =>
          split at h
          · obtain ⟨rfl, rfl⟩ := by simpa using h
            refine ⟨[fi], List.Sublist.cons₂ fi (List.nil_sublist rest), ?_⟩
            simp only [siblingInfos, filepathJoin_dotFree hfi]
            rw [List.filter_cons_of_pos childEv_self]
            simp [List.filter_nil]
          · split at h
            · exact absurd h (by simp)
            · next tr2 r2 hrun2 =>
              obtain ⟨rfl, rfl⟩ := by simpa using h
              obtain ⟨vis2, hsub2, hsib2⟩ := IH p (some e) rest tr2 r2 hrun2
              refine ⟨fi :: vis2, hsub2.cons₂ fi, ?_⟩
              simp only [siblingInfos, filepathJoin_dotFree hfi] at hsib2 ⊢
              rw [List.filter_cons_of_pos childEv_self]
              simp [hsib2]
        · split at h
          · exact absurd h (by simp)
          · next tr1 r1 hrun1 =>
            obtain ⟨e0, hfilter1⟩ := walk_childEvents hfi hrun1
            have hsib1 : siblingInfos p tr1 = [fi] := by
              simp [siblingInfos, hfilter1]
            split at h
            · split at h
              · exact absurd h (by simp)
              · next tr2 r2 hrun2 =>
                obtain ⟨rfl, rfl⟩ := by simpa using h
                obtain ⟨vis2, hsub2, hsib2⟩ := IH p none rest tr2 r2 hrun2
                refine ⟨fi :: vis2, hsub2.cons₂ fi, ?_⟩
                simp only [siblingInfos, List.filter_append, List.filterMap_append] at hsib1 hsib2 ⊢
                rw [hsib1, hsib2]
                rfl
            · split at h
              · obtain ⟨rfl, rfl⟩ := by simpa using h
                exact ⟨[fi], List.Sublist.cons₂ fi (List.nil_sublist rest), hsib1⟩
              · split at h
                · exact absurd h (by simp)
                · next tr2 r2 hrun2 =>
                  obtain ⟨rfl, rfl⟩ := by simpa using h
                  obtain ⟨vis2, hsub2, hsib2⟩ := IH p (some .skipDir) rest tr2 r2 hrun2
                  refine ⟨fi :: vis2, hsub2.cons₂ fi, ?_⟩
                  simp only [siblingInfos, List.filter_append, List.filterMap_append] at hsib1 hsib2 ⊢
                  rw [hsib1, hsib2]
                  rfl

/-- Same statement for the root loop of `GenericWalk`, assuming no root
entry is a dot name. -/
theorem gloop_siblings {fuel : Nat} {fs : FileSystem} {root : Path} {fn : WalkFunc} :
    ∀ {infos : List FileInfo} {ec : Option Err} {tr : List Event} {r : Option Err},
    (∀ i ∈ infos, dotFree i.name) →
    genericWalkLoop fuel fs root fn ec infos = some (tr, r) →
    ∃ vis, List.Sublist vis infos ∧ siblingInfos root tr = vis := by
  intro infos
  induction infos with
  | nil =>
    intro ec tr r _ h
    simp only [genericWalkLoop, Option.some.injEq, Prod.mk.injEq] at h
    obtain ⟨rfl, rfl⟩ := h
    exact ⟨[], List.Sublist.refl _, rfl⟩
  | cons i rest IH =>
    intro ec tr r hdf h
    have hi : dotFree i.name := hdf i (by simp)
    simp only [genericWalkLoop] at h
    split at h
    · exact absurd h (by simp)
    · next tr1 r1 h1 =>
      obtain ⟨e0, hfilter1⟩ := walk_childEvents hi h1
      have hsib1 : siblingInfos root tr1 = [i] := by
        simp [siblingInfos, hfilter1]
      split at h
      · obtain ⟨rfl, rfl⟩ := by simpa using h
        exact ⟨[i], List.Sublist.cons₂ i (List.nil_sublist rest), hsib1⟩
      · split at h
        · exact absurd h (by simp)
        · next tr2 r2 h2 =>
          obtain ⟨rfl, rfl⟩ := by simpa using h
          obtain ⟨vis2, hsub2, hsib2⟩ := IH (fun j hj => hdf j (by simp [hj])) h2
          refine ⟨i :: vis2, hsub2.cons₂ i, ?_⟩
          simp only [siblingInfos, List.filter_append, List.filterMap_append] at hsib1 hsib2 ⊢
          rw [hsib1, hsib2]
          rfl

/-- C3: every directory listing used during a walk is the `ReadDir` result
sorted so that lowercased names are non-decreasing (whatever order `ReadDir`
produced), and consequently the infos passed to the callback for the direct
children of any walked directory — and of the root, when its entries are
dot-free — appear in non-decreasing lowercased-name order. -/
theorem claim_C3_sibling_order :
    (∀ (fs : FileSystem) (dirname : Path) (raw : List FileInfo),
      fs dirname = .ok raw →
      readDirInfos fs dirname = .ok (sortFunc raw) ∧
      List.Perm (sortFunc raw) raw ∧ List.Pairwise lowerLe (sortFunc raw)) ∧
    (∀ (fuel : Nat) (fs : FileSystem) (path : Path) (info : FileInfo) (fn : WalkFunc)
        (tr : List Event) (r : Option Err),
      walk fuel fs path info fn = some (tr, r) →
      List.Pairwise lowerLe (siblingInfos path tr)) ∧
    (∀ (fuel : Nat) (fs : FileSystem) (root : Path) (fn : WalkFunc) (raw : List FileInfo)
        (tr : List Event) (r : Option Err),
      fs root = .ok raw → (∀ i ∈ raw, i.name ≠ "." ∧ i.name ≠ "..") →
      GenericWalk fuel fs root fn = some (tr, r) →
      List.Pairwise lowerLe (siblingInfos root tr)) := by
  refine ⟨?_, ?_, ?_⟩
  · intro fs dirname raw hok
    exact ⟨by simp [readDirInfos, hok], sortFunc_perm raw, sortFunc_sorted raw⟩
  · intro fuel fs path info fn tr r h
    match fuel with
    | 0 => simp [walk, run] at h
    | fuel + 1 =>
      simp only [walk, run] at h
      have hself : ∀ (i : Option FileInfo) (e : Option Err),
          childEv path ⟨path, i, e⟩ = false :=
        fun i e => childEv_of_length (by simp)
      split at h
      · obtain ⟨rfl, rfl⟩ := by simpa using h
        simp [siblingInfos, hself]
      · split at h
        · obtain ⟨rfl, rfl⟩ := by simpa using h
          simp [siblingInfos, hself]
        · next dirs hdirs =>
          split at h
          · obtain ⟨rfl, rfl⟩ := by simpa using h
            simp [siblingInfos, hself]
          · split at h
            · exact absurd h (by simp)
            · next tr' r' hrun =>
              obtain ⟨rfl, rfl⟩ := by simpa using h
              obtain ⟨vis, hsub, hsib⟩ := loop_siblings fuel fs fn path none _ tr' r' hrun
              obtain ⟨raw, _, rfl⟩ := readDirInfos_ok hdirs
              have hvis : List.Pairwise lowerLe vis :=
                List.Pairwise.sublist hsub (sortFunc_sorted raw)
              have : siblingInfos path (Event.mk path (some info) none :: tr') =
                  siblingInfos path tr' := by
                simp only [siblingInfos]
                rw [List.filter_cons_of_neg (by simp [hself (some info) none])]
              rw [this, hsib]
              exact hvis
  · intro fuel fs root fn raw tr r hok hnd h
    simp only [GenericWalk, readDirInfos, hok] at h
    have hdf : ∀ i ∈ sortFunc raw, dotFree i.name := by
      intro i hi
      exact hnd i ((sortFunc_perm raw).mem_iff.mp hi)
    obtain ⟨vis, hsub, hsib⟩ := gloop_siblings hdf h
    rw [hsib]
    exact List.Pairwise.sublist hsub (sortFunc_sorted raw)

theorem claim_C3_witness :
    (readDirInfos unsortedFS ["r"] =
        .ok (sortFunc [⟨"b", false⟩, ⟨"A", true⟩, ⟨"aa", false⟩]) ∧
      List.Perm (sortFunc [⟨"b", false⟩, ⟨"A", true⟩, ⟨"aa", false⟩])
        [⟨"b", false⟩, ⟨"A", true⟩, ⟨"aa", false⟩] ∧
      List.Pairwise lowerLe (sortFunc [⟨"b", false⟩, ⟨"A", true⟩, ⟨"aa", false⟩])) ∧
    List.Pairwise lowerLe (siblingInfos ["r"]
      [⟨["r", "A"], some ⟨"A", true⟩, none⟩,
       ⟨["r", "aa"], some ⟨"aa", false⟩, none⟩,
       ⟨["r", "b"], some ⟨"b", false⟩, none⟩]) :=
  ⟨claim_C3_sibling_order.1 unsortedFS ["r"] [⟨"b", false⟩, ⟨"A", true⟩, ⟨"aa", false⟩] rfl,
   claim_C3_sibling_order.2.2 5 unsortedFS ["r"] nilFn
     [⟨"b", false⟩, ⟨"A", true⟩, ⟨"aa", false⟩] _ none rfl (by decide) rfl⟩

/-- Inside `walk`: a visit at which the callback returns `SkipAll` is always
the last event of the trace, and if it occurs the result is `SkipAll`. -/
theorem run_skipAll : ∀ (fuel : Nat) (fs : FileSystem) (fn : WalkFunc) (job : Job)
    (tr : List Event) (r : Option Err), run fuel fs fn job = some (tr, r) →
    (∀ ev ∈ tr.dropLast, ¬returnsSkipAll fn ev) ∧
    (r ≠ some .skipAll → ∀ ev ∈ tr, ¬returnsSkipAll fn ev) := by
  intro fuel fs fn
  induction fuel with
  | zero => intro job tr r h; simp [run] at h
  | succ fuel IH =>
    rintro (⟨path, info⟩ | ⟨path, ec, _ | ⟨fi, rest⟩⟩) tr r h
    · -- walkJ
      simp only [run] at h
      split at h
      · obtain ⟨rfl, rfl⟩ := by simpa using h
        exact ⟨by simp, fun hr => by
          simp only [List.mem_singleton]
          rintro ev rfl
          simpa [returnsSkipAll] using hr⟩
      · split at h
        · obtain ⟨rfl, rfl⟩ := by simpa using h
          exact ⟨by simp, fun hr => by
            simp only [List.mem_singleton]
            rintro ev rfl
            simpa [returnsSkipAll] using hr⟩
        · split at h
          · next e1 he1 =>
            obtain ⟨rfl, rfl⟩ := by simpa using h
            refine ⟨by simp, fun hr ev hev => ?_⟩
            rcases List.mem_singleton.mp hev with rfl
            simp only [returnsSkipAll, Event.path, Event.info, Event.err]
            rw [he1]
            exact hr
          · next he1 =>
            split at h
            · exact absurd h (by simp)
            · next tr' r' hrun =>
              obtain ⟨rfl, rfl⟩ := by simpa using h
              obtain ⟨ih1, ih2⟩ := IH (Job.loopJ path none _) tr' r' hrun
              have hhead : ¬returnsSkipAll fn ⟨path, some info, none⟩ := by
                simp [returnsSkipAll, he1]
              constructor
              · match tr' with
                | [] => simp
                | ev' :: tr'' =>
                  rw [List.dropLast_cons_of_ne_nil (by simp)]
                  intro ev hev
                  rcases List.mem_cons.mp hev with rfl | hev
                  · exact hhead
                  · exact ih1 ev hev
              · intro hr ev hev
                rcases List.mem_cons.mp hev with rfl | hev
                · exact hhead
                · exact ih2 hr ev hev
    · -- loopJ []
      simp only [run, Option.some.injEq, Prod.mk.injEq] at h
      obtain ⟨rfl, rfl⟩ := h
      simp
    · -- loopJ cons
      simp only [run] at h
      split at h
      · exact IH (Job.loopJ path ec rest) tr r h
      · split at h
        · next e =>
          split at h
          · next hret =>
            obtain ⟨rfl, rfl⟩ := by simpa using h
            refine ⟨by simp, fun hr => ?_⟩
            simp only [List.mem_singleton]
            rintro ev rfl
            exact fun hc => hr (by rw [returnsSkipAll] at hc; rw [← hc])
          · next hret =>
            split at h
            · exact absurd h (by simp)
            · next tr2 r2 hrun2 =>
              obtain ⟨rfl, rfl⟩ := by simpa using h
              obtain ⟨ih1, ih2⟩ := IH (Job.loopJ path (some e) rest) tr2 r2 hrun2
              have hhead : ¬returnsSkipAll fn ⟨filepathJoin path fi.name, some fi, some e⟩ := by
                simp only [returnsSkipAll, Event.path, Event.info, Event.err]
                intro hc
                exact hret ⟨by simp [hc], by simp [hc]⟩
              constructor
              · match tr2 with
                | [] => simp
                | ev' :: tr'' =>
                  rw [List.dropLast_cons_of_ne_nil (by simp)]
                  intro ev hev
                  rcases List.mem_cons.mp hev with rfl | hev
                  · exact hhead
                  · exact ih1 ev hev
              · intro hr ev hev
                rcases List.mem_cons.mp hev with rfl | hev
                · exact hhead
                · exact ih2 hr ev hev
        · split at h
          · exact absurd h (by simp)
          · next tr1 r1 hrun1 =>
            obtain ⟨ih11, ih12⟩ := IH (Job.walkJ (filepathJoin path fi.name) fi) tr1 r1 hrun1
            split at h
            · -- child returned nil
              split at h
              · exact absurd h (by simp)
              · next tr2 r2 hrun2 =>
                obtain ⟨rfl, rfl⟩ := by simpa using h
                obtain ⟨ih21, ih22⟩ := IH (Job.loopJ path none rest) tr2 r2 hrun2
                have h1all : ∀ ev ∈ tr1, ¬returnsSkipAll fn ev := ih12 (by simp)
                constructor
                · match tr2 with
                  | [] =>
                    rw [List.append_nil]
                    intro ev hev
                    exact h1all ev (List.Sublist.subset (List.dropLast_sublist tr1) hev)
                  | ev' :: tr'' =>
                    rw [List.dropLast_append_of_ne_nil _ (by simp)]
                    intro ev hev
                    rcases List.mem_append.mp hev with hev | hev
                    · exact h1all ev hev
                    · exact ih21 ev hev
                · intro hr ev hev
                  rcases List.mem_append.mp hev with hev | hev
                  · exact h1all ev hev
                  · exact ih22 hr ev hev
            · -- child returned an error and the loop returns it
              next e =>
              split at h
              · obtain ⟨rfl, rfl⟩ := by simpa using h
                exact ⟨ih11, ih12⟩
              · -- SkipDir from a directory child: loop continues poisoned
                next hcond =>
                split at h
                · exact absurd h (by simp)
                · next tr2 r2 hrun2 =>
                  obtain ⟨rfl, rfl⟩ := by simpa using h
                  obtain ⟨ih21, ih22⟩ := IH (Job.loopJ path (some .skipDir) rest) tr2 r2 hrun2
                  have he : e = .skipDir := by
                    by_contra hc
                    exact hcond (Or.inr hc)
                  have h1all : ∀ ev ∈ tr1, ¬returnsSkipAll fn ev := by
                    refine ih12 ?_
                    rw [he]
                    simp
                  constructor
                  · match tr2 with
                    | [] =>
                      rw [List.append_nil]
                      intro ev hev
                      exact h1all ev (List.Sublist.subset (List.dropLast_sublist tr1) hev)
                    | ev' :: tr'' =>
                      rw [List.dropLast_append_of_ne_nil _ (by simp)]
                      intro ev hev
                      rcases List.mem_append.mp hev with hev | hev
                      · exact h1all ev hev
                      · exact ih21 ev hev
                  · intro hr ev hev
                    rcases List.mem_append.mp hev with hev | hev
                    · exact h1all ev hev
                    · exact ih22 hr ev hev

/-- Root-loop version of the `SkipAll` invariant: a visit at which the
callback returns `SkipAll` is the last event, and if one occurs inside some
entry's walk the loop discards the sentinel and returns `nil`. -/
theorem gloop_skipAll {fuel : Nat} {fs : FileSystem} {root : Path} {fn : WalkFunc} :
    ∀ {infos : List FileInfo} {ec : Option Err} {tr : List Event} {r : Option Err},
    genericWalkLoop fuel fs root fn ec infos = some (tr, r) →
    (∀ ev ∈ tr.dropLast, ¬returnsSkipAll fn ev) ∧
    (∀ ev ∈ tr, returnsSkipAll fn ev → r = none) := by
  intro infos
  induction infos with
  | nil =>
    intro ec tr r h
    simp only [genericWalkLoop, Option.some.injEq, Prod.mk.injEq] at h
    obtain ⟨rfl, rfl⟩ := h
    simp
  | cons i rest IH =>
    intro ec tr r h
    simp only [genericWalkLoop] at h
    split at h
    · exact absurd h (by simp)
    · next tr1 r1 h1 =>
      obtain ⟨ih1, ih2⟩ := run_skipAll fuel fs fn _ tr1 r1 h1
      split at h
      · obtain ⟨rfl, rfl⟩ := by simpa using h
        exact ⟨ih1, fun _ _ _ => rfl⟩
      · next hsent =>
        have hr1 : r1 ≠ some Err.skipAll := fun hc => hsent (Or.inr hc)
        have h1all : ∀ ev ∈ tr1, ¬returnsSkipAll fn ev := ih2 hr1
        split at h
        · exact absurd h (by simp)
        · next tr2 r2 h2 =>
          obtain ⟨rfl, rfl⟩ := by simpa using h
          obtain ⟨jh1, jh2⟩ := IH h2
          constructor
          · match tr2 with
            | [] =>
              rw [List.append_nil]
              intro ev hev
              exact h1all ev (List.Sublist.subset (List.dropLast_sublist tr1) hev)
            | ev' :: tr'' =>
              rw [List.dropLast_append_of_ne_nil _ (by simp)]
              intro ev hev
              rcases List.mem_append.mp hev with hev | hev
              · exact h1all ev hev
              · exact jh1 ev hev
          · intro ev hev hall
            rcases List.mem_append.mp hev with hev | hev
            · exact absurd hall (h1all ev hev)
            · exact jh2 ev hev hall

/-- C5: whenever the callback returns the `SkipAll` sentinel at a visit of an
actual entry, that visit is the last callback invocation of the entire
`GenericWalk` (it is not in the trace minus its last element, so nothing is
visited after it), and `GenericWalk` returns `nil` rather than reporting the
sentinel as an error. -/
theorem claim_C5_skipAll_aborts :
    ∀ (fuel : Nat) (fs : FileSystem) (root : Path) (fn : WalkFunc)
      (tr : List Event) (r : Option Err),
      GenericWalk fuel fs root fn = some (tr, r) →
      ∀ ev ∈ tr, ev.info ≠ none → fn ev.path ev.info ev.err = some .skipAll →
      ev ∉ tr.dropLast ∧ r = none := by
  intro fuel fs root fn tr r h ev hev hinfo hsa
  rw [GenericWalk] at h
  split at h
  · obtain ⟨rfl, rfl⟩ := by simpa using h
    rcases List.mem_singleton.mp hev with rfl
    exact absurd rfl hinfo
  · obtain ⟨g1, g2⟩ := gloop_skipAll h
    have hret : returnsSkipAll fn ev := hsa
    exact ⟨fun hc => g1 ev hc hret, g2 ev hev hret⟩

theorem claim_C5_witness :
    (⟨["r", "b"], some ⟨"b", false⟩, none⟩ : Event) ∉
      ([⟨["r", "a"], some ⟨"a", false⟩, none⟩,
        ⟨["r", "b"], some ⟨"b", false⟩, none⟩] : List Event).dropLast ∧
    (none : Option Err) = none :=
  claim_C5_skipAll_aborts 10 fsABC ["r"] skipAllAtB
    [⟨["r", "a"], some ⟨"a", false⟩, none⟩, ⟨["r", "b"], some ⟨"b", false⟩, none⟩]
    none rfl ⟨["r", "b"], some ⟨"b", false⟩, none⟩ (by simp) (by simp) rfl

/-- C2 is the intended behaviour, but the code does not implement it; this
theorem evaluates the code at the failing inputs. After the callback returns
`SkipDir` for the directory `/r/P/d`, the loop-carried `err` variable of
`walk` stays `SkipDir`, so the subsequent siblings `e` and `f` are passed to
the callback with the non-nil error `SkipDir` (the claim requires a nil
error) and the directory sibling `f` is never descended into.  Worse, for a
directory directly below the root (`/r/d`), `GenericWalk`'s own loop treats
the returned `SkipDir` as a walk-wide stop: the sibling `e` is never visited
at all. -/
theorem claim_C2_code_bug :
    GenericWalk 10 skipDirDemoFS ["r"] skipDirAtD =
      some ([⟨["r", "P"], some ⟨"P", true⟩, none⟩,
             ⟨["r", "P", "d"], some ⟨"d", true⟩, none⟩,
             ⟨["r", "P", "e"], some ⟨"e", false⟩, some .skipDir⟩,
             ⟨["r", "P", "f"], some ⟨"f", true⟩, some .skipDir⟩], none) ∧
    GenericWalk 10 rootSkipFS ["r"] skipDirAtRootD =
      some ([⟨["r", "d"], some ⟨"d", true⟩, none⟩], none) :=
  ⟨rfl, rfl⟩

theorem dropRoot_append : ∀ (root x : Path), dropRoot root (root ++ x) = some x := by
  intro root
  induction root with
  | nil => intro x; simp [dropRoot]
  | cons r rs IH => intro x; simp [dropRoot, IH]

theorem fsOfTree_at {root : Path} {ts : List FTree} {rel : Path} {cs : List FTree}
    (h : lookupForest ts rel = some cs) :
    fsOfTree root ts (root ++ rel) = .ok (cs.map FTree.info) := by
  simp [fsOfTree, dropRoot_append, h]

theorem lookupForest_snoc : ∀ (x : Path) (ts : List FTree) (n : String),
    lookupForest ts (x ++ [n]) =
      match lookupForest ts x with
      | some cs =>
        match findTree n cs with
        | some (FTree.dir _ cs2) => some cs2.toList
        | _ => none
      | none => none := by
  intro x
  induction x with
  | nil =>
    intro ts n
    simp only [List.nil_append, lookupForest]
  | cons s x IH =>
    intro ts n
    simp only [List.cons_append, lookupForest]
    split
    · next t cs2 heq => exact IH cs2.toList n
    · rfl

theorem findTree_of_nodup : ∀ {l : List FTree} {c : FTree},
    namesNodupB (l.map FTree.name) = true → c ∈ l → findTree c.name l = some c := by
  intro l
  induction l with
  | nil => intro c _ hc; cases hc
  | cons t rest IH =>
    intro c hnd hc
    simp only [List.map_cons, namesNodupB, Bool.and_eq_true, Bool.not_eq_true] at hnd
    obtain ⟨hcont, hnd2⟩ := hnd
    rcases List.mem_cons.mp hc with rfl | hc
    · simp [findTree]
    · rw [findTree]
      split
      · next heq =>
        exfalso
        simp only [List.contains_eq_any_beq] at hcont
        have hany : ((List.map FTree.name rest).any fun x => t.name == x) = false := by
          simpa using hcont
        simp only [List.any_eq_false] at hany
        have hmem : t.name ∈ List.map FTree.name rest := by
          rw [heq]
          exact List.mem_map_of_mem _ hc
        have := hany t.name hmem
        simp at this
      · exact IH hnd2 hc

theorem namesNodupB_iff : ∀ {l : List String}, namesNodupB l = true ↔ l.Nodup := by
  intro l
  induction l with
  | nil => simp [namesNodupB]
  | cons n rest IH =>
    simp only [namesNodupB, Bool.and_eq_true, Bool.not_eq_true, List.nodup_cons, ← IH]
    constructor
    · rintro ⟨h1, h2⟩
      exact ⟨by simpa using h1, h2⟩
    · rintro ⟨h1, h2⟩
      exact ⟨by simp [h1], h2⟩

theorem sortTreeInsert_map (t : FTree) (l : List FTree) :
    sortInsert t.info (l.map FTree.info) = (sortTreeInsert t l).map FTree.info := by
  induction l with
  | nil => rfl
  | cons u l IH =>
    simp only [List.map_cons, sortInsert, sortTreeInsert]
    split
    · next h => simp [h]
    · next h => simp only [List.map_cons, IH]

theorem sortTrees_map (l : List FTree) :
    sortFunc (l.map FTree.info) = (sortTrees l).map FTree.info := by
  induction l with
  | nil => rfl
  | cons t l IH =>
    simp only [List.map_cons, sortFunc, sortTrees, IH]
    exact sortTreeInsert_map t (sortTrees l)

theorem sortTreeInsert_perm (t : FTree) (l : List FTree) :
    List.Perm (sortTreeInsert t l) (t :: l) := by
  induction l with
  | nil => simp [sortTreeInsert]
  | cons u l IH =>
    simp only [sortTreeInsert]
    split
    · exact List.Perm.refl _
    · exact (IH.cons u).trans (List.Perm.swap t u l)

theorem sortTrees_perm (l : List FTree) : List.Perm (sortTrees l) l := by
  induction l with
  | nil => simp [sortTrees]
  | cons t l IH => exact (sortTreeInsert_perm t (sortTrees l)).trans (IH.cons t)

theorem forestCost_toList : ∀ (cs : FForest), forestCost cs = listCost cs.toList
  | .nil => rfl
  | .cons t rest => by
    rw [forestCost, FForest.toList, listCost, forestCost_toList rest]

theorem listCost_eq_sum : ∀ (l : List FTree),
    listCost l = 1 + (l.map (fun t => 1 + treeCost t)).sum
  | [] => rfl
  | t :: rest => by
    rw [listCost, listCost_eq_sum rest, List.map_cons, List.sum_cons]
    omega

theorem listCost_perm {l1 l2 : List FTree} (h : List.Perm l1 l2) :
    listCost l1 = listCost l2 := by
  rw [listCost_eq_sum, listCost_eq_sum, List.Perm.sum_eq (List.Perm.map _ h)]

theorem treeCost_le_listCost : ∀ {c : FTree} {l : List FTree}, c ∈ l → treeCost c ≤ listCost l := by
  intro c l
  induction l with
  | nil => intro hc; cases hc
  | cons t rest IH =>
    intro hc
    rcases List.mem_cons.mp hc with rfl | hc
    · rw [listCost]; omega
    · have := IH hc
      rw [listCost]
      omega

theorem wfForest_mem : ∀ (cs : FForest), wfForest cs = true → ∀ t ∈ cs.toList, wfTree t = true
  | .nil => by intro _ t ht; simp [FForest.toList] at ht
  | .cons u rest => by
    intro hwf t ht
    rw [wfForest, Bool.and_eq_true] at hwf
    rw [FForest.toList] at ht
    rcases List.mem_cons.mp ht with rfl | ht
    · exact hwf.1
    · exact wfForest_mem rest hwf.2 t ht

theorem forestPaths_eq : ∀ (p : Path) (cs : FForest),
    forestPaths p cs = cs.toList.flatMap (treePaths p)
  | _, .nil => rfl
  | p, .cons t rest => by
    rw [forestPaths, FForest.toList, List.flatMap_cons, forestPaths_eq p rest]

mutual

theorem treePaths_shape : ∀ (p : Path) (t : FTree), ∀ q ∈ treePaths p t,
    ∃ u, q = p ++ [t.name] ++ u
  | p, .file n => by
    intro q hq
    rw [treePaths] at hq
    rcases List.mem_singleton.mp hq with rfl
    exact ⟨[], by simp [FTree.name]⟩
  | p, .dir n cs => by
    intro q hq
    rw [treePaths] at hq
    rcases List.mem_cons.mp hq with rfl | hq
    · exact ⟨[], by simp [FTree.name]⟩
    · obtain ⟨t', _, u, hu⟩ := forestPaths_shape (p ++ [n]) cs q hq
      exact ⟨[t'.name] ++ u, by simp [FTree.name, hu]⟩

theorem forestPaths_shape : ∀ (p : Path) (cs : FForest), ∀ q ∈ forestPaths p cs,
    ∃ t ∈ cs.toList, ∃ u, q = p ++ [t.name] ++ u
  | p, .nil => by intro q hq; rw [forestPaths] at hq; cases hq
  | p, .cons t rest => by
    intro q hq
    rw [forestPaths] at hq
    rcases List.mem_append.mp hq with hq | hq
    · obtain ⟨u, hu⟩ := treePaths_shape p t q hq
      exact ⟨t, by simp [FForest.toList], u, hu⟩
    · obtain ⟨t', ht', u, hu⟩ := forestPaths_shape p rest q hq
      exact ⟨t', by simp [FForest.toList, ht'], u, hu⟩

end

theorem seg_eq_of_shape {p : Path} {a b : String} {u v : List String}
    (h : p ++ [a] ++ u = p ++ [b] ++ v) : a = b := by
  rw [List.append_assoc, List.append_assoc] at h
  have h2 := List.append_cancel_left h
  simpa using congrArg (fun l => l.headD "") h2

mutual

theorem treePaths_nodup : ∀ (p : Path) (t : FTree), wfTree t = true →
    (treePaths p t).Nodup
  | p, .file n => by intro _; simp [treePaths]
  | p, .dir n cs => by
    intro hwf
    rw [wfTree, Bool.and_eq_true, Bool.and_eq_true] at hwf
    obtain ⟨⟨_, hwfcs⟩, hnd⟩ := hwf
    rw [treePaths]
    refine List.nodup_cons.mpr ⟨?_, forestPaths_nodup (p ++ [n]) cs hwfcs hnd⟩
    intro hc
    obtain ⟨t', _, u, hu⟩ := forestPaths_shape (p ++ [n]) cs _ hc
    have := congrArg List.length hu
    simp at this

theorem forestPaths_nodup : ∀ (p : Path) (cs : FForest), wfForest cs = true →
    namesNodupB (cs.toList.map FTree.name) = true → (forestPaths p cs).Nodup
  | p, .nil => by intro _ _; simp [forestPaths]
  | p, .cons t rest => by
    intro hwf hnd
    rw [wfForest, Bool.and_eq_true] at hwf
    rw [FForest.toList, List.map_cons, namesNodupB, Bool.and_eq_true] at hnd
    obtain ⟨hcont, hnd2⟩ := hnd
    rw [forestPaths, List.nodup_append]
    refine ⟨treePaths_nodup p t hwf.1, forestPaths_nodup p rest hwf.2 hnd2, ?_⟩
    intro q hq hq'
    obtain ⟨u, hu⟩ := treePaths_shape p t q hq
    obtain ⟨t', ht', u', hu'⟩ := forestPaths_shape p rest q hq'
    rw [hu] at hu'
    have hname : t.name = t'.name := seg_eq_of_shape hu'
    simp only [List.contains_eq_any_beq] at hcont
    have hany : ((List.map FTree.name rest.toList).any fun x => t.name == x) = false := by
      simpa using hcont
    simp only [List.any_eq_false] at hany
    have := hany t'.name (List.mem_map_of_mem _ ht')
    rw [hname] at this
    simp at this

end

theorem treeCost_pos : ∀ (t : FTree), 1 ≤ treeCost t
  | .file _ => le_refl _
  | .dir _ cs => by rw [treeCost]; omega

theorem listCost_pos : ∀ (l : List FTree), 1 ≤ listCost l
  | [] => le_refl _
  | _ :: _ => by rw [listCost]; omega

theorem info_name (t : FTree) : (FTree.info t).name = t.name := rfl

theorem info_isDir (t : FTree) : (FTree.info t).isDir = t.isDir := rfl

theorem dotFreeB_iff {n : String} : dotFreeB n = true ↔ (n ≠ "." ∧ n ≠ "..") := by
  simp [dotFreeB]

theorem wfTree_dotFree : ∀ {t : FTree}, wfTree t = true → dotFreeB t.name = true := by
  intro t
  match t with
  | .file n => intro h; exact h
  | .dir n cs => intro h; rw [wfTree, Bool.and_eq_true, Bool.and_eq_true] at h; exact h.1.1

theorem wfTree_notDot {t : FTree} (h : wfTree t = true) :
    ¬((FTree.info t).name = "." ∨ (FTree.info t).name = "..") := by
  rw [info_name]
  obtain ⟨h1, h2⟩ := dotFreeB_iff.mp (wfTree_dotFree h)
  rintro (hc | hc) <;> [exact h1 hc; exact h2 hc]

theorem wfTree_dotFreeName {t : FTree} (h : wfTree t = true) : dotFree t.name :=
  dotFreeB_iff.mp (wfTree_dotFree h)

theorem readDir_fsOfTree {root : Path} {ts : List FTree} {rel : Path} {n : String}
    {cs : List FTree} (hlook : lookupForest ts (rel ++ [n]) = some cs) :
    readDirInfos (fsOfTree root ts) (root ++ rel ++ [n]) =
      .ok ((sortTrees cs).map FTree.info) := by
  rw [List.append_assoc]
  simp [readDirInfos, fsOfTree_at hlook, sortTrees_map]

theorem lookup_children_of_wf {ts : List FTree} {rel : Path} {n : String} {cs : List FTree}
    (hlook : lookupForest ts (rel ++ [n]) = some cs)
    (hnd : namesNodupB (cs.map FTree.name) = true) :
    ∀ c ∈ cs, c.isDir = true → lookupForest ts ((rel ++ [n]) ++ [c.name]) = some (childrenOf c) := by
  intro c hc hcdir
  rw [lookupForest_snoc, hlook]
  simp only [findTree_of_nodup hnd hc]
  match c, hcdir with
  | .dir m cs2, _ => rfl

/-- With enough fuel (one unit per step, bounded by the tree's cost), a walk
over a tree-backed filesystem finishes, and its result does not depend on the
fuel: the recursion is genuinely well-founded, decreasing with the subtree
being visited. Joint statement for `walk` jobs and entry-loop jobs. -/
theorem walk_agree_main : ∀ (fuel : Nat) (root : Path) (ts : List FTree) (fn : WalkFunc)
    (fuel' : Nat), fuel ≤ fuel' →
    ((∀ (t : FTree) (rel : Path), treeCost t ≤ fuel → wfTree t = true →
      (t.isDir = true → lookupForest ts (rel ++ [t.name]) = some (childrenOf t)) →
      ∃ res, run fuel (fsOfTree root ts) fn (.walkJ (root ++ rel ++ [t.name]) t.info) = some res ∧
        run fuel' (fsOfTree root ts) fn (.walkJ (root ++ rel ++ [t.name]) t.info) = some res) ∧
     (∀ (cl : List FTree) (relbase : Path) (ec : Option Err),
      listCost cl ≤ fuel → (∀ c ∈ cl, wfTree c = true) →
      (∀ c ∈ cl, c.isDir = true →
        lookupForest ts (relbase ++ [c.name]) = some (childrenOf c)) →
      ∃ res, run fuel (fsOfTree root ts) fn
          (.loopJ (root ++ relbase) ec (cl.map FTree.info)) = some res ∧
        run fuel' (fsOfTree root ts) fn
          (.loopJ (root ++ relbase) ec (cl.map FTree.info)) = some res)) := by
  intro fuel
  induction fuel with
  | zero =>
    intro root ts fn fuel' _
    constructor
    · intro t rel hcost
      exact absurd hcost (by have := treeCost_pos t; omega)
    · intro cl relbase ec hcost
      exact absurd hcost (by have := listCost_pos cl; omega)
  | succ fuel IH =>
    intro root ts fn fuel' hle
    obtain ⟨fuel2, rfl⟩ : ∃ k, fuel' = k + 1 := ⟨fuel' - 1, by omega⟩
    have hle2 : fuel ≤ fuel2 := by omega
    obtain ⟨IHw, IHl⟩ := IH root ts fn fuel2 hle2
    constructor
    · -- walk job
      rintro (⟨n⟩ | ⟨n, cs⟩) rel hcost hwf hlook
      · -- file: a single callback invocation, independent of fuel
        exact ⟨([⟨root ++ rel ++ [n], some ⟨n, false⟩, none⟩],
                 fn (root ++ rel ++ [n]) (some ⟨n, false⟩) none),
               by simp [run, FTree.info, FTree.isDir, FTree.name],
               by simp [run, FTree.info, FTree.isDir, FTree.name]⟩
      · -- directory
        have hlook2 : lookupForest ts (rel ++ [n]) = some cs.toList := hlook rfl
        have hreaddir := @readDir_fsOfTree root ts rel n cs.toList hlook2
        rw [List.append_assoc] at hreaddir
        have hwf' := hwf
        rw [wfTree, Bool.and_eq_true, Bool.and_eq_true] at hwf'
        obtain ⟨⟨hdf, hwfcs⟩, hnd⟩ := hwf'
        rcases hfn1 : fn (root ++ (rel ++ [n])) (some ⟨n, true⟩) none with _ | e1
        · -- callback nil: run the entry loop on the sorted children
          have hcost2 : listCost (sortTrees cs.toList) ≤ fuel := by
            rw [listCost_perm (sortTrees_perm cs.toList), ← forestCost_toList]
            rw [treeCost] at hcost
            omega
          have hwfs2 : ∀ c ∈ sortTrees cs.toList, wfTree c = true := fun c hc =>
            wfForest_mem cs hwfcs c ((sortTrees_perm cs.toList).mem_iff.mp hc)
          have hlooks2 : ∀ c ∈ sortTrees cs.toList, c.isDir = true →
              lookupForest ts ((rel ++ [n]) ++ [c.name]) = some (childrenOf c) := fun c hc =>
            lookup_children_of_wf hlook2 hnd c ((sortTrees_perm cs.toList).mem_iff.mp hc)
          obtain ⟨⟨tr1, r1⟩, hA, hB⟩ :=
            IHl (sortTrees cs.toList) (rel ++ [n]) none hcost2 hwfs2 hlooks2
          refine ⟨(⟨root ++ rel ++ [n], some ⟨n, true⟩, none⟩ :: tr1, r1), ?_, ?_⟩
          · simp [run, FTree.info, FTree.isDir, FTree.name, hreaddir, hfn1, hA]
          · simp [run, FTree.info, FTree.isDir, FTree.name, hreaddir, hfn1, hB]
        · -- callback returned non-nil on the directory itself
          refine ⟨([⟨root ++ rel ++ [n], some ⟨n, true⟩, none⟩], some e1), ?_, ?_⟩
          · simp [run, FTree.info, FTree.isDir, FTree.name, hreaddir, hfn1]
          · simp [run, FTree.info, FTree.isDir, FTree.name, hreaddir, hfn1]
    · -- loop job
      rintro (_ | ⟨c, cl⟩) relbase ec hcost hwfs hlooks
      · exact ⟨([], none), by simp [run], by simp [run]⟩
      · have hwfc := hwfs c (by simp)
        have hnd : ¬((FTree.info c).name = "." ∨ (FTree.info c).name = "..") :=
          wfTree_notDot hwfc
        have hdfc : dotFree c.name := wfTree_dotFreeName hwfc
        have hjoin : filepathJoin (root ++ relbase) (FTree.info c).name =
            root ++ relbase ++ [c.name] := by
          rw [info_name, filepathJoin_dotFree hdfc]
        have hcostc : treeCost c ≤ fuel := by
          rw [listCost] at hcost
          have := listCost_pos cl
          omega
        have hcostl : listCost cl ≤ fuel := by
          rw [listCost] at hcost
          have := treeCost_pos c
          omega
        have hwfs' : ∀ d ∈ cl, wfTree d = true := fun d hd => hwfs d (by simp [hd])
        have hlooks' : ∀ d ∈ cl, d.isDir = true →
            lookupForest ts (relbase ++ [d.name]) = some (childrenOf d) :=
          fun d hd => hlooks d (by simp [hd])
        rcases ec with _ | e
        · -- errCur = nil: recursive walk into the entry
          obtain ⟨⟨tr1, r1⟩, hA1, hB1⟩ := IHw c relbase hcostc hwfc (hlooks c (by simp))
          rcases r1 with _ | e1
          · -- child walk returned nil
            obtain ⟨⟨tr2, r2⟩, hA2, hB2⟩ := IHl cl relbase none hcostl hwfs' hlooks'
            refine ⟨(tr1 ++ tr2, r2), ?_, ?_⟩
            · simp only [run, List.map_cons, if_neg hnd, hjoin, hA1, hA2]
            · simp only [run, List.map_cons, if_neg hnd, hjoin, hB1, hB2]
          · -- child walk returned an error
            by_cases hcond : ((!(FTree.info c).isDir) = true ∨ e1 ≠ Err.skipDir)
            · refine ⟨(tr1, some e1), ?_, ?_⟩
              · simp only [run, List.map_cons, if_neg hnd, hjoin, hA1, if_pos hcond]
              · simp only [run, List.map_cons, if_neg hnd, hjoin, hB1, if_pos hcond]
            · obtain ⟨⟨tr2, r2⟩, hA2, hB2⟩ :=
                IHl cl relbase (some .skipDir) hcostl hwfs' hlooks'
              refine ⟨(tr1 ++ tr2, r2), ?_, ?_⟩
              · simp only [run, List.map_cons, if_neg hnd, hjoin, hA1, if_neg hcond, hA2]
              · simp only [run, List.map_cons, if_neg hnd, hjoin, hB1, if_neg hcond, hB2]
        · -- errCur = some e: error-branch invocation of the callback
          by_cases hcond : (fn (filepathJoin (root ++ relbase) (FTree.info c).name)
              (some (FTree.info c)) (some e) ≠ none ∧
            fn (filepathJoin (root ++ relbase) (FTree.info c).name)
              (some (FTree.info c)) (some e) ≠ some Err.skipDir)
          · refine ⟨([⟨filepathJoin (root ++ relbase) (FTree.info c).name,
                some (FTree.info c), some e⟩],
              fn (filepathJoin (root ++ relbase) (FTree.info c).name)
                (some (FTree.info c)) (some e)), ?_, ?_⟩
            · simp only [run, List.map_cons, if_neg hnd, if_pos hcond]
            · simp only [run, List.map_cons, if_neg hnd, if_pos hcond]
          · obtain ⟨⟨tr2, r2⟩, hA2, hB2⟩ := IHl cl relbase (some e) hcostl hwfs' hlooks'
            refine ⟨(⟨filepathJoin (root ++ relbase) (FTree.info c).name,
                some (FTree.info c), some e⟩ :: tr2, r2), ?_, ?_⟩
            · simp only [run, List.map_cons, if_neg hnd, if_neg hcond, hA2]
            · simp only [run, List.map_cons, if_neg hnd, if_neg hcond, hB2]

/-- Fuel-independence of the root loop of `GenericWalk` over a tree-backed
filesystem. -/
theorem gloop_agree : ∀ (cl : List FTree) (root : Path) (ts : List FTree) (fn : WalkFunc)
    (fuel fuel' : Nat) (ec : Option Err), fuel ≤ fuel' →
    (∀ c ∈ cl, treeCost c ≤ fuel) → (∀ c ∈ cl, wfTree c = true) →
    (∀ c ∈ cl, c.isDir = true → lookupForest ts [c.name] = some (childrenOf c)) →
    ∃ res, genericWalkLoop fuel (fsOfTree root ts) root fn ec (cl.map FTree.info) = some res ∧
      genericWalkLoop fuel' (fsOfTree root ts) root fn ec (cl.map FTree.info) = some res := by
  intro cl
  induction cl with
  | nil => intro root ts fn fuel fuel' ec _ _ _ _; exact ⟨([], ec), rfl, rfl⟩
  | cons c cl IH =>
    intro root ts fn fuel fuel' ec hle hcosts hwfs hlooks
    have hwfc := hwfs c (by simp)
    have hdfc : dotFree c.name := wfTree_dotFreeName hwfc
    have hjoin : filepathJoin root (FTree.info c).name = root ++ [] ++ [c.name] := by
      rw [info_name, filepathJoin_dotFree hdfc]
      simp
    obtain ⟨IHw, _⟩ := walk_agree_main fuel root ts fn fuel' hle
    obtain ⟨⟨tr1, r1⟩, hA1, hB1⟩ := IHw c [] (hcosts c (by simp)) hwfc
      (by intro hd; simpa using hlooks c (by simp) hd)
    obtain ⟨⟨tr2, r2⟩, hA2, hB2⟩ := IH root ts fn fuel fuel' r1 hle
      (fun d hd => hcosts d (by simp [hd])) (fun d hd => hwfs d (by simp [hd]))
      (fun d hd => hlooks d (by simp [hd]))
    by_cases hsent : (r1 = some Err.skipDir ∨ r1 = some Err.skipAll)
    · refine ⟨(tr1, none), ?_, ?_⟩
      · simp only [List.map_cons, genericWalkLoop, walk, hjoin, hA1, if_pos hsent]
      · simp only [List.map_cons, genericWalkLoop, walk, hjoin, hB1, if_pos hsent]
    · refine ⟨(tr1 ++ tr2, r2), ?_, ?_⟩
      · simp only [List.map_cons, genericWalkLoop, walk, hjoin, hA1, if_neg hsent, hA2]
      · simp only [List.map_cons, genericWalkLoop, walk, hjoin, hB1, if_neg hsent, hB2]

/-- C7: on every filesystem backed by a finite acyclic well-formed tree,
`GenericWalk` terminates for every callback: with fuel at least the tree's
cost the walk completes, and the result does not depend on the fuel — the
recursion is well-founded, decreasing with the subtree being visited. -/
theorem claim_C7_termination :
    ∀ (root : Path) (ts : List FTree) (fn : WalkFunc) (fuel : Nat),
      wfTrees ts = true → listCost ts ≤ fuel →
      ∃ res, GenericWalk fuel (fsOfTree root ts) root fn = some res ∧
        ∀ fuel', fuel ≤ fuel' → GenericWalk fuel' (fsOfTree root ts) root fn = some res := by
  intro root ts fn fuel hwf hcost
  have hfs : fsOfTree root ts root = .ok (ts.map FTree.info) := by
    have h0 : lookupForest ts [] = some ts := rfl
    have := @fsOfTree_at root ts [] ts h0
    simpa using this
  have hrd : readDirInfos (fsOfTree root ts) root = .ok ((sortTrees ts).map FTree.info) := by
    simp [readDirInfos, hfs, sortTrees_map]
  rw [wfTrees, Bool.and_eq_true] at hwf
  obtain ⟨hall, hnd⟩ := hwf
  have hmem : ∀ c ∈ sortTrees ts, c ∈ ts := fun c hc => (sortTrees_perm ts).mem_iff.mp hc
  have hcosts : ∀ c ∈ sortTrees ts, treeCost c ≤ fuel := fun c hc =>
    le_trans (treeCost_le_listCost (hmem c hc)) hcost
  have hwfs : ∀ c ∈ sortTrees ts, wfTree c = true := fun c hc => by
    rw [List.all_eq_true] at hall
    exact hall c (hmem c hc)
  have hlooks : ∀ c ∈ sortTrees ts, c.isDir = true →
      lookupForest ts [c.name] = some (childrenOf c) := by
    intro c hc hdir
    rw [lookupForest]
    simp only [findTree_of_nodup hnd (hmem c hc)]
    match c, hdir with
    | .dir m cs2, _ => rfl
  obtain ⟨res, hself, -⟩ :=
    gloop_agree (sortTrees ts) root ts fn fuel fuel none (le_refl _) hcosts hwfs hlooks
  refine ⟨res, by simp only [GenericWalk, hrd]; exact hself, ?_⟩
  intro fuel' hle
  obtain ⟨res2, hA, hB⟩ :=
    gloop_agree (sortTrees ts) root ts fn fuel fuel' none hle hcosts hwfs hlooks
  have hres : res2 = res := Option.some.inj (hA.symm.trans hself)
  simp only [GenericWalk, hrd, hB, hres]

theorem claim_C7_witness :
    ∃ res, GenericWalk 20 (fsOfTree ["r"] exampleTrees) ["r"] skipDirFn = some res ∧
      ∀ fuel', 20 ≤ fuel' →
        GenericWalk fuel' (fsOfTree ["r"] exampleTrees) ["r"] skipDirFn = some res :=
  claim_C7_termination ["r"] exampleTrees skipDirFn 20 (by decide) (by decide)

theorem flat_treePaths_shape {p : Path} {cl : List FTree} :
    ∀ x ∈ cl.flatMap (treePaths p), ∃ c ∈ cl, ∃ u, x = p ++ [c.name] ++ u := by
  intro x hx
  rw [List.mem_flatMap] at hx
  obtain ⟨c, hc, hx⟩ := hx
  obtain ⟨u, hu⟩ := treePaths_shape p c x hx
  exact ⟨c, hc, u, hu⟩

theorem listPaths_nodup : ∀ {cl : List FTree} {p : Path},
    (∀ c ∈ cl, wfTree c = true) → namesNodupB (cl.map FTree.name) = true →
    (cl.flatMap (treePaths p)).Nodup := by
  intro cl
  induction cl with
  | nil => intro p _ _; simp
  | cons c cl IH =>
    intro p hwf hnd
    rw [List.map_cons, namesNodupB, Bool.and_eq_true] at hnd
    obtain ⟨hcont, hnd2⟩ := hnd
    rw [List.flatMap_cons, List.nodup_append]
    refine ⟨treePaths_nodup p c (hwf c (by simp)),
      IH (fun d hd => hwf d (by simp [hd])) hnd2, ?_⟩
    intro q hq hq'
    obtain ⟨u, hu⟩ := treePaths_shape p c q hq
    obtain ⟨c', hc', u', hu'⟩ := flat_treePaths_shape q hq'
    rw [hu] at hu'
    have hname : c.name = c'.name := seg_eq_of_shape hu'
    simp only [List.contains_eq_any_beq] at hcont
    have hany : ((List.map FTree.name cl).any fun x => c.name == x) = false := by
      simpa using hcont
    simp only [List.any_eq_false] at hany
    have := hany c'.name (List.mem_map_of_mem _ hc')
    rw [hname] at this
    simp at this

/-- With a callback that always returns nil and a well-formed tree-backed
filesystem, a walk visits exactly the subtree's entries: the trace's paths
are a permutation of the subtree's pre-order path list, and any entry path
is visited before every proper extension of it. Joint statement for `walk`
jobs and entry-loop jobs. -/
theorem walk_nil_main : ∀ (fuel : Nat) (root : Path) (ts : List FTree) (fn : WalkFunc),
    (∀ p i e, fn p i e = none) →
    ((∀ (t : FTree) (rel : Path), treeCost t ≤ fuel → wfTree t = true →
      (t.isDir = true → lookupForest ts (rel ++ [t.name]) = some (childrenOf t)) →
      ∃ tr, run fuel (fsOfTree root ts) fn
          (.walkJ (root ++ rel ++ [t.name]) t.info) = some (tr, none) ∧
        List.Perm (tr.map Event.path) (treePaths (root ++ rel) t) ∧
        properOrder (tr.map Event.path)) ∧
     (∀ (cl : List FTree) (relbase : Path), listCost cl ≤ fuel →
      (∀ c ∈ cl, wfTree c = true) →
      (∀ c ∈ cl, c.isDir = true →
        lookupForest ts (relbase ++ [c.name]) = some (childrenOf c)) →
      namesNodupB (cl.map FTree.name) = true →
      ∃ tr, run fuel (fsOfTree root ts) fn
          (.loopJ (root ++ relbase) none (cl.map FTree.info)) = some (tr, none) ∧
        List.Perm (tr.map Event.path) (cl.flatMap (treePaths (root ++ relbase))) ∧
        properOrder (tr.map Event.path))) := by
  intro fuel
  induction fuel with
  | zero =>
    intro root ts fn _
    constructor
    · intro t rel hcost
      exact absurd hcost (by have := treeCost_pos t; omega)
    · intro cl relbase hcost
      exact absurd hcost (by have := listCost_pos cl; omega)
  | succ fuel IH =>
    intro root ts fn hfn
    obtain ⟨IHw, IHl⟩ := IH root ts fn hfn
    constructor
    · -- walk job
      rintro (⟨n⟩ | ⟨n, cs⟩) rel hcost hwf hlook
      · -- file
        refine ⟨[⟨root ++ rel ++ [n], some ⟨n, false⟩, none⟩], ?_, ?_, ?_⟩
        · simp [run, FTree.info, FTree.isDir, FTree.name, hfn]
        · have : List.map Event.path [(⟨root ++ rel ++ [n], some ⟨n, false⟩, none⟩ : Event)] =
              treePaths (root ++ rel) (FTree.file n) := by
            simp [treePaths, FTree.name]
          rw [this]
        · intro q hq q' hq' hcond
          obtain ⟨u, hu0, hu⟩ := hcond
          exfalso
          simp only [List.map_cons, List.map_nil, List.mem_singleton] at hq hq'
          rw [hq'] at hu
          rw [hq] at hu
          have := congrArg List.length hu
          simp at this
          exact hu0 this
      · -- directory
        have hlook2 : lookupForest ts (rel ++ [n]) = some cs.toList := hlook rfl
        have hreaddir := @readDir_fsOfTree root ts rel n cs.toList hlook2
        rw [List.append_assoc] at hreaddir
        have hwf' := hwf
        rw [wfTree, Bool.and_eq_true, Bool.and_eq_true] at hwf'
        obtain ⟨⟨hdf, hwfcs⟩, hnd⟩ := hwf'
        have hcost2 : listCost (sortTrees cs.toList) ≤ fuel := by
          rw [listCost_perm (sortTrees_perm cs.toList), ← forestCost_toList]
          rw [treeCost] at hcost
          omega
        have hwfs2 : ∀ c ∈ sortTrees cs.toList, wfTree c = true := fun c hc =>
          wfForest_mem cs hwfcs c ((sortTrees_perm cs.toList).mem_iff.mp hc)
        have hlooks2 : ∀ c ∈ sortTrees cs.toList, c.isDir = true →
            lookupForest ts ((rel ++ [n]) ++ [c.name]) = some (childrenOf c) := fun c hc =>
          lookup_children_of_wf hlook2 hnd c ((sortTrees_perm cs.toList).mem_iff.mp hc)
        have hnd2 : namesNodupB ((sortTrees cs.toList).map FTree.name) = true :=
          namesNodupB_iff.mpr
            ((((sortTrees_perm cs.toList).map FTree.name).nodup_iff).mpr
              (namesNodupB_iff.mp hnd))
        obtain ⟨tr1, hA, hperm1, hord1⟩ :=
          IHl (sortTrees cs.toList) (rel ++ [n]) hcost2 hwfs2 hlooks2 hnd2
        have hshape1 : ∀ x ∈ List.map Event.path tr1,
            ∃ c ∈ sortTrees cs.toList, ∃ u, x = (root ++ (rel ++ [n])) ++ [c.name] ++ u :=
          fun x hx => flat_treePaths_shape x (hperm1.mem_iff.mp hx)
        refine ⟨⟨root ++ rel ++ [n], some ⟨n, true⟩, none⟩ :: tr1, ?_, ?_, ?_⟩
        · simp [run, FTree.info, FTree.isDir, FTree.name, hreaddir, hfn, hA]
        · simp only [List.map_cons, Event.path, treePaths, FTree.name]
          refine List.Perm.cons _ (hperm1.trans ?_)
          rw [forestPaths_eq, ← List.append_assoc]
          exact List.Perm.flatMap_right _ (sortTrees_perm cs.toList)
        · intro q hq q' hq' hcond
          obtain ⟨u, hu0, hu⟩ := hcond
          simp only [List.map_cons, Event.path, List.mem_cons] at hq hq'
          rcases hq with rfl | hq
          · -- q is the directory's own path
            rcases hq' with hq' | hq'
            · exfalso
              rw [hq'] at hu
              have := congrArg List.length hu
              simp at this
              exact hu0 this
            · simp only [List.map_cons, Event.path]
              exact List.Sublist.cons₂ _ (List.singleton_sublist.mpr hq')
          · -- q is inside a child subtree
            have hq'2 : q' ∈ List.map Event.path tr1 := by
              rcases hq' with hq' | hq'
              · exfalso
                obtain ⟨c, _, w, hw⟩ := hshape1 q hq
                have hlen := congrArg List.length hu
                rw [hq', hw] at hlen
                simp [List.length_append] at hlen
              · exact hq'
            simp only [List.map_cons, Event.path]
            exact List.Sublist.cons _ (hord1 q hq q' hq'2 ⟨u, hu0, hu⟩)
    · -- loop job
      rintro (_ | ⟨c, cl⟩) relbase hcost hwfs hlooks hnd
      · refine ⟨[], by simp [run], by simp, ?_⟩
        intro q hq
        simp at hq
      · have hwfc := hwfs c (by simp)
        have hndot : ¬((FTree.info c).name = "." ∨ (FTree.info c).name = "..") :=
          wfTree_notDot hwfc
        have hdfc : dotFree c.name := wfTree_dotFreeName hwfc
        have hjoin : filepathJoin (root ++ relbase) (FTree.info c).name =
            root ++ relbase ++ [c.name] := by
          rw [info_name, filepathJoin_dotFree hdfc]
        have hcostc : treeCost c ≤ fuel := by
          rw [listCost] at hcost
          have := listCost_pos cl
          omega
        have hcostl : listCost cl ≤ fuel := by
          rw [listCost] at hcost
          have := treeCost_pos c
          omega
        rw [List.map_cons, namesNodupB, Bool.and_eq_true] at hnd
        obtain ⟨hcont, hnd2⟩ := hnd
        obtain ⟨tr1, hA1, hperm1, hord1⟩ := IHw c relbase hcostc hwfc (hlooks c (by simp))
        obtain ⟨tr2, hA2, hperm2, hord2⟩ := IHl cl relbase hcostl
          (fun d hd => hwfs d (by simp [hd]))
          (fun d hd => hlooks d (by simp [hd])) hnd2
        have hshape1 : ∀ x ∈ List.map Event.path tr1,
            ∃ w, x = (root ++ relbase) ++ [c.name] ++ w := fun x hx =>
          treePaths_shape (root ++ relbase) c x (hperm1.mem_iff.mp hx)
        have hshape2 : ∀ x ∈ List.map Event.path tr2,
            ∃ d ∈ cl, ∃ w, x = (root ++ relbase) ++ [d.name] ++ w := fun x hx =>
          flat_treePaths_shape x (hperm2.mem_iff.mp hx)
        refine ⟨tr1 ++ tr2, ?_, ?_, ?_⟩
        · simp only [run, List.map_cons, if_neg hndot, hjoin, hA1, hA2]
        · rw [List.map_append, List.flatMap_cons]
          exact List.Perm.append hperm1 hperm2
        · intro q hq q' hq' hcond
          rw [List.map_append] at hq hq' ⊢
          rcases List.mem_append.mp hq with hq | hq <;>
            rcases List.mem_append.mp hq' with hq' | hq'
          · exact (hord1 q hq q' hq' hcond).trans (List.sublist_append_left _ _)
          · exact List.Sublist.append (List.singleton_sublist.mpr hq)
              (List.singleton_sublist.mpr hq')
          · -- a path in a later sibling cannot be a prefix of one in `c`
            exfalso
            obtain ⟨u, hu0, hu⟩ := hcond
            obtain ⟨d, hd, w', hw'⟩ := hshape2 q hq
            obtain ⟨w, hw⟩ := hshape1 q' hq'
            rw [hw', hw] at hu
            rw [List.append_assoc ((root ++ relbase) ++ [d.name]) w' u] at hu
            have hname : c.name = d.name := seg_eq_of_shape hu
            simp only [List.contains_eq_any_beq] at hcont
            have hany : ((List.map FTree.name cl).any fun x => c.name == x) = false := by
              simpa using hcont
            simp only [List.any_eq_false] at hany
            have := hany d.name (List.mem_map_of_mem _ hd)
            rw [hname] at this
            simp at this
          · exact (hord2 q hq q' hq' hcond).trans (List.sublist_append_right _ _)

/-- Root-loop version of `walk_nil_main` for `GenericWalk`. -/
theorem gloop_nil : ∀ (cl : List FTree) (root : Path) (ts : List FTree) (fn : WalkFunc)
    (fuel : Nat), (∀ p i e, fn p i e = none) →
    (∀ c ∈ cl, treeCost c ≤ fuel) → (∀ c ∈ cl, wfTree c = true) →
    (∀ c ∈ cl, c.isDir = true → lookupForest ts [c.name] = some (childrenOf c)) →
    namesNodupB (cl.map FTree.name) = true →
    ∃ tr, genericWalkLoop fuel (fsOfTree root ts) root fn none (cl.map FTree.info) =
        some (tr, none) ∧
      List.Perm (tr.map Event.path) (cl.flatMap (treePaths root)) ∧
      properOrder (tr.map Event.path) := by
  intro cl
  induction cl with
  | nil =>
    intro root ts fn fuel _ _ _ _ _
    refine ⟨[], rfl, by simp, ?_⟩
    intro q hq
    simp at hq
  | cons c cl IH =>
    intro root ts fn fuel hfn hcosts hwfs hlooks hnd
    have hwfc := hwfs c (by simp)
    have hdfc : dotFree c.name := wfTree_dotFreeName hwfc
    have hjoin : filepathJoin root (FTree.info c).name = root ++ [c.name] := by
      rw [info_name, filepathJoin_dotFree hdfc]
    rw [List.map_cons, namesNodupB, Bool.and_eq_true] at hnd
    obtain ⟨hcont, hnd2⟩ := hnd
    obtain ⟨IHw, _⟩ := walk_nil_main fuel root ts fn hfn
    obtain ⟨tr1, hA1, hperm1, hord1⟩ := IHw c [] (hcosts c (by simp)) hwfc
      (by intro hd; simpa using hlooks c (by simp) hd)
    rw [List.append_nil] at hA1 hperm1
    obtain ⟨tr2, hA2, hperm2, hord2⟩ := IH root ts fn fuel hfn
      (fun d hd => hcosts d (by simp [hd])) (fun d hd => hwfs d (by simp [hd]))
      (fun d hd => hlooks d (by simp [hd])) hnd2
    have hshape1 : ∀ x ∈ List.map Event.path tr1, ∃ w, x = root ++ [c.name] ++ w :=
      fun x hx => treePaths_shape root c x (hperm1.mem_iff.mp hx)
    have hshape2 : ∀ x ∈ List.map Event.path tr2,
        ∃ d ∈ cl, ∃ w, x = root ++ [d.name] ++ w := fun x hx =>
      flat_treePaths_shape x (hperm2.mem_iff.mp hx)
    refine ⟨tr1 ++ tr2, ?_, ?_, ?_⟩
    · simp only [List.map_cons, genericWalkLoop, walk, hjoin, hA1]
      simp only [hA2, if_neg (by simp : ¬((none : Option Err) = some Err.skipDir ∨
        (none : Option Err) = some Err.skipAll))]
    · rw [List.map_append, List.flatMap_cons]
      exact List.Perm.append hperm1 hperm2
    · intro q hq q' hq' hcond
      rw [List.map_append] at hq hq' ⊢
      rcases List.mem_append.mp hq with hq | hq <;>
        rcases List.mem_append.mp hq' with hq' | hq'
      · exact (hord1 q hq q' hq' hcond).trans (List.sublist_append_left _ _)
      · exact List.Sublist.append (List.singleton_sublist.mpr hq)
          (List.singleton_sublist.mpr hq')
      · exfalso
        obtain ⟨u, hu0, hu⟩ := hcond
        obtain ⟨d, hd, w', hw'⟩ := hshape2 q hq
        obtain ⟨w, hw⟩ := hshape1 q' hq'
        rw [hw', hw] at hu
        rw [List.append_assoc (root ++ [d.name]) w' u] at hu
        have hname : c.name = d.name := seg_eq_of_shape hu
        simp only [List.contains_eq_any_beq] at hcont
        have hany : ((List.map FTree.name cl).any fun x => c.name == x) = false := by
          simpa using hcont
        simp only [List.any_eq_false] at hany
        have := hany d.name (List.mem_map_of_mem _ hd)
        rw [hname] at this
        simp at this
      · exact (hord2 q hq q' hq' hcond).trans (List.sublist_append_right _ _)

/-- C1: on every finite acyclic well-formed filesystem tree, when every
directory listing succeeds (they all do on a tree-backed filesystem) and the
callback always returns nil, `GenericWalk` passes every entry of the tree to
the callback exactly once (the trace's paths are a permutation of the tree's
duplicate-free entry-path list) and in pre-order: the invocation for a
directory occurs before the invocations for all entries contained in it
(whenever one visited path properly extends another, the shorter path's
invocation comes first). -/
theorem claim_C1_preorder :
    ∀ (root : Path) (ts : List FTree) (fn : WalkFunc) (fuel : Nat),
      (∀ p i e, fn p i e = none) → wfTrees ts = true → listCost ts ≤ fuel →
      ∃ tr, GenericWalk fuel (fsOfTree root ts) root fn = some (tr, none) ∧
        List.Perm (tr.map Event.path) (ts.flatMap (treePaths root)) ∧
        (ts.flatMap (treePaths root)).Nodup ∧
        properOrder (tr.map Event.path) := by
  intro root ts fn fuel hfn hwf hcost
  have hfs : fsOfTree root ts root = .ok (ts.map FTree.info) := by
    have h0 : lookupForest ts [] = some ts := rfl
    have := @fsOfTree_at root ts [] ts h0
    simpa using this
  have hrd : readDirInfos (fsOfTree root ts) root = .ok ((sortTrees ts).map FTree.info) := by
    simp [readDirInfos, hfs, sortTrees_map]
  rw [wfTrees, Bool.and_eq_true] at hwf
  obtain ⟨hall, hnd⟩ := hwf
  rw [List.all_eq_true] at hall
  have hmem : ∀ c ∈ sortTrees ts, c ∈ ts := fun c hc => (sortTrees_perm ts).mem_iff.mp hc
  have hcosts : ∀ c ∈ sortTrees ts, treeCost c ≤ fuel := fun c hc =>
    le_trans (treeCost_le_listCost (hmem c hc)) hcost
  have hwfs : ∀ c ∈ sortTrees ts, wfTree c = true := fun c hc => hall c (hmem c hc)
  have hlooks : ∀ c ∈ sortTrees ts, c.isDir = true →
      lookupForest ts [c.name] = some (childrenOf c) := by
    intro c hc hdir
    rw [lookupForest]
    simp only [findTree_of_nodup hnd (hmem c hc)]
    match c, hdir with
    | .dir m cs2, _ => rfl
  have hnd2 : namesNodupB ((sortTrees ts).map FTree.name) = true :=
    namesNodupB_iff.mpr
      ((((sortTrees_perm ts).map FTree.name).nodup_iff).mpr (namesNodupB_iff.mp hnd))
  obtain ⟨tr, hA, hperm, hord⟩ := gloop_nil (sortTrees ts) root ts fn fuel hfn
    hcosts hwfs hlooks hnd2
  refine ⟨tr, by simp only [GenericWalk, hrd]; exact hA, ?_, ?_, hord⟩
  · exact hperm.trans (List.Perm.flatMap_right _ (sortTrees_perm ts))
  · exact listPaths_nodup hall (namesNodupB_iff.mpr (namesNodupB_iff.mp hnd))

theorem claim_C1_witness :
    ∃ tr, GenericWalk 20 (fsOfTree ["r"] exampleTrees) ["r"] nilFn = some (tr, none) ∧
      List.Perm (tr.map Event.path) (exampleTrees.flatMap (treePaths ["r"])) ∧
      (exampleTrees.flatMap (treePaths ["r"])).Nodup ∧
      properOrder (tr.map Event.path) :=
  claim_C1_preorder ["r"] exampleTrees nilFn 20 (fun _ _ _ => rfl) (by decide) (by decide)

/-- C4: for every directory whose `ReadDir` call fails during a walk
(including the root), the callback is invoked exactly once for that directory
with the `ReadDir` error, the walker does not descend into it (the trace is
that single invocation), and the walk's continuation is decided solely by the
callback's return value: `walk` (resp. `GenericWalk`) returns exactly what
the callback returned. -/
theorem claim_C4_dir_read_error :
    (∀ (fuel : Nat) (fs : FileSystem) (path : Path) (info : FileInfo) (fn : WalkFunc) (e : Err),
      info.isDir = true → fs path = .error e →
      walk (fuel + 1) fs path info fn =
        some ([⟨path, some info, some e⟩], fn path (some info) (some e))) ∧
    (∀ (fuel : Nat) (fs : FileSystem) (root : Path) (fn : WalkFunc) (e : Err),
      fs root = .error e →
      GenericWalk fuel fs root fn = some ([⟨root, none, some e⟩], fn root none (some e))) := by
  constructor
  · intro fuel fs path info fn e hdir herr
    simp [walk, run, readDirInfos, herr, hdir]
  · intro fuel fs root fn e herr
    simp [GenericWalk, readDirInfos, herr]

theorem claim_C4_witness :
    walk 1 failFS ["r", "d"] ⟨"d", true⟩ nilFn =
      some ([⟨["r", "d"], some ⟨"d", true⟩, some (.other "boom")⟩], none) ∧
    GenericWalk 1 failFS ["r"] nilFn =
      some ([⟨["r"], none, some (.other "boom")⟩], none) :=
  ⟨claim_C4_dir_read_error.1 0 failFS ["r", "d"] ⟨"d", true⟩ nilFn (.other "boom") rfl rfl,
   claim_C4_dir_read_error.2 1 failFS ["r"] nilFn (.other "boom") rfl⟩

/-- C10: when the root `ReadDir` fails, `GenericWalk` returns exactly what
the callback returned for the error invocation — whatever that value is,
including the `SkipDir`/`SkipAll` sentinels, which on this path are passed
through to the caller as the error. -/
theorem claim_C10_root_error_returns_callback :
    ∀ (fuel : Nat) (fs : FileSystem) (root : Path) (fn : WalkFunc) (e : Err),
      fs root = .error e →
      GenericWalk fuel fs root fn = some ([⟨root, none, some e⟩], fn root none (some e)) := by
  intro fuel fs root fn e herr
  simp [GenericWalk, readDirInfos, herr]

theorem claim_C10_witness :
    GenericWalk 1 failFS ["r"] skipDirFn =
      some ([⟨["r"], none, some (.other "boom")⟩], some .skipDir) :=
  claim_C10_root_error_returns_callback 1 failFS ["r"] skipDirFn (.other "boom") rfl

/-- C8: inside `walk` — hence in every non-root directory — entries named
`"."` or `".."` are never passed to the callback: every event after the
first (the walked entry's own event) carries an info whose name is not a
dot name. In the root loop of `GenericWalk` nothing is filtered: on the
example `dotRootFS`, whose root lists `"."` and `".."`, both are walked
(and the `"."` entry of the subdirectory `a` is not). -/
theorem claim_C8_dot_entries :
    (∀ (fuel : Nat) (fs : FileSystem) (path : Path) (info : FileInfo) (fn : WalkFunc)
        (tr : List Event) (r : Option Err),
      walk fuel fs path info fn = some (tr, r) →
      ∀ ev ∈ tr.tail, ∃ fi, ev.info = some fi ∧ fi.name ≠ "." ∧ fi.name ≠ "..") ∧
    GenericWalk 5 dotRootFS ["r"] nilFn =
      some ([⟨["r"], some ⟨".", false⟩, none⟩,
             ⟨[], some ⟨"..", false⟩, none⟩,
             ⟨["r", "a"], some ⟨"a", true⟩, none⟩,
             ⟨["r", "a", "b"], some ⟨"b", false⟩, none⟩], none) := by
  constructor
  · intro fuel fs path info fn tr r h ev hev
    obtain ⟨e0, rest, rfl, hrest⟩ := walk_shape h
    obtain ⟨⟨fi, hfi, h1, h2⟩, _⟩ := hrest ev (by simpa using hev)
    exact ⟨fi, hfi, h1, h2⟩
  · rfl

theorem claim_C8_witness :
    ∀ ev ∈ ([⟨["r", "a"], some ⟨"a", true⟩, none⟩,
             ⟨["r", "a", "b"], some ⟨"b", false⟩, none⟩] : List Event).tail,
      ∃ fi, ev.info = some fi ∧ fi.name ≠ "." ∧ fi.name ≠ ".." :=
  claim_C8_dot_entries.1 4 dotRootFS ["r", "a"] ⟨"a", true⟩ nilFn _ none rfl

/-- C9 as stated is false: when the root listing succeeds but contains an
entry named `"."`, `filepath.Join(root, ".")` is the root itself, so the
callback is invoked with the root path in the success case.  On `dotRootFS`
the root listing succeeds and the walk's first event has path `["r"]`, the
root. -/
theorem claim_C9_counterexample :
    readDirInfos dotRootFS ["r"] = .ok [⟨".", false⟩, ⟨"..", false⟩, ⟨"a", true⟩] ∧
    GenericWalk 5 dotRootFS ["r"] nilFn =
      some ([⟨["r"], some ⟨".", false⟩, none⟩,
             ⟨[], some ⟨"..", false⟩, none⟩,
             ⟨["r", "a"], some ⟨"a", true⟩, none⟩,
             ⟨["r", "a", "b"], some ⟨"b", false⟩, none⟩], none) ∧
    (⟨["r"], some ⟨".", false⟩, none⟩ : Event).path = ["r"] :=
  ⟨rfl, rfl, rfl⟩

/-- C9, amended: provided no root entry is named `"."` or `".."`, the root
path is never passed to the callback when the root listing succeeds — every
invocation's path lies strictly below the root; and the callback is invoked
on the root path, with a nil info and the `ReadDir` error, exactly in the
failure case. -/
theorem claim_C9_amended :
    (∀ (fuel : Nat) (fs : FileSystem) (root : Path) (fn : WalkFunc) (raw : List FileInfo)
        (tr : List Event) (r : Option Err),
      fs root = .ok raw →
      (∀ i ∈ raw, i.name ≠ "." ∧ i.name ≠ "..") →
      GenericWalk fuel fs root fn = some (tr, r) →
      ∀ ev ∈ tr, ev.path ≠ root ∧ (∃ fi, ev.info = some fi) ∧
        ∃ n u, ev.path = root ++ [n] ++ u) ∧
    (∀ (fuel : Nat) (fs : FileSystem) (root : Path) (fn : WalkFunc) (e : Err),
      fs root = .error e →
      GenericWalk fuel fs root fn = some ([⟨root, none, some e⟩], fn root none (some e))) := by
  constructor
  · intro fuel fs root fn raw tr r hok hnd h
    simp only [GenericWalk, readDirInfos, hok] at h
    have hdf : ∀ i ∈ sortFunc raw, dotFree i.name := by
      intro i hi
      exact hnd i ((sortFunc_perm raw).mem_iff.mp hi)
    intro ev hev
    obtain ⟨⟨fi, hfi⟩, n, u, hn, hp⟩ := genericWalkLoop_shape hdf h ev hev
    refine ⟨?_, ⟨fi, hfi⟩, n, u, hp⟩
    intro hcontra
    have := congrArg List.length (hcontra ▸ hp)
    simp at this
  · intro fuel fs root fn e herr
    simp [GenericWalk, readDirInfos, herr]

theorem claim_C9_witness :
    (∀ ev ∈ ([⟨["r", "a"], some ⟨"a", false⟩, none⟩] : List Event),
      ev.path ≠ ["r"] ∧ (∃ fi, ev.info = some fi) ∧
        ∃ n u, ev.path = ["r"] ++ [n] ++ u) ∧
    GenericWalk 1 failFS ["r"] nilFn = some ([⟨["r"], none, some (.other "boom")⟩], none) :=
  ⟨claim_C9_amended.1 3 (fun p => if p = ["r"] then .ok [⟨"a", false⟩] else .error (.other "nf"))
      ["r"] nilFn [⟨"a", false⟩] _ none rfl (by simp) rfl,
   claim_C9_amended.2 1 failFS ["r"] nilFn (.other "boom") rfl⟩

theorem chunkify_flatten : ∀ (fuel : Nat) (bs : Nat) (content : List Nat),
    content.length ≤ fuel →
    (chunkify bs fuel content).1.flatten ++ (chunkify bs fuel content).2 = content := by
  intro fuel
  induction fuel with
  | zero =>
    intro bs content hlen
    have : content = [] := List.eq_nil_of_length_eq_zero (by omega)
    subst this
    simp [chunkify]
  | succ fuel IH =>
    intro bs content hlen
    rw [chunkify]
    split
    · next hcond =>
      have hdrop : (content.drop bs).length ≤ fuel := by
        rw [List.length_drop]
        omega
      simp only [List.flatten_cons, List.append_assoc, IH bs (content.drop bs) hdrop]
      exact List.take_append_drop bs content
    · simp

theorem splitFull_flatten (bs : Nat) (content : List Nat) :
    (splitFull bs content).1.flatten ++ (splitFull bs content).2 = content :=
  chunkify_flatten content.length bs content (le_refl _)

theorem decode_store {c d : Codec} (hcd : ∀ b, d (c b) = b) (b : List Nat) :
    decodeBlock d (storeBlock c b) = b := by
  rw [storeBlock, decodeBlock]
  split <;> simp [hcd]

theorem ViewLE.refl (v : View) : ViewLE v v :=
  ⟨⟨[], by simp⟩, ⟨[], by simp⟩, fun fi => ⟨[], by simp⟩⟩

theorem ViewLE.trans {u v w : View} (h1 : ViewLE u v) (h2 : ViewLE v w) : ViewLE u w := by
  obtain ⟨⟨a1, hb1⟩, ⟨a2, hi1⟩, hf1⟩ := h1
  obtain ⟨⟨b1, hb2⟩, ⟨b2, hi2⟩, hf2⟩ := h2
  refine ⟨⟨a1 ++ b1, by rw [hb2, hb1, List.append_assoc]⟩,
    ⟨a2 ++ b2, by rw [hi2, hi1, List.append_assoc]⟩, fun fi => ?_⟩
  obtain ⟨e1, he1⟩ := hf1 fi
  obtain ⟨e2, he2⟩ := hf2 fi
  exact ⟨e1 ++ e2, by rw [he2, he1, List.append_assoc]⟩

theorem getElem?_stable {α : Type} {l u : List α} {i : Nat} {x : α}
    (h : l[i]? = some x) : (l ++ u)[i]? = some x := by
  obtain ⟨hlt, -⟩ := List.getElem?_eq_some.mp h
  rw [List.getElem?_append_left hlt]
  exact h

theorem slice_stable {a e : List Nat} {off len : Nat} (h : off + len ≤ a.length) :
    (((a ++ e).drop off).take len) = ((a.drop off).take len) := by
  rw [List.drop_append_of_le_length (by omega)]
  rw [List.take_append_of_le_length]
  rw [List.length_drop]
  omega

theorem decodeAll_append {d : Codec} {blocks u : List (Bool × List Nat)} :
    ∀ {idxs : List Nat} {x : List (List Nat)},
    decodeAll d blocks idxs = some x → decodeAll d (blocks ++ u) idxs = some x := by
  intro idxs
  induction idxs with
  | nil => intro x h; exact h
  | cons bi idxs IH =>
    intro x h
    rw [decodeAll] at h ⊢
    split at h
    · exact absurd h (by simp)
    · next b hb =>
      rw [getElem?_stable hb]
      obtain ⟨chunks, hchunks, hx⟩ := Option.map_eq_some'.mp h
      rw [Option.map_eq_some']
      exact ⟨chunks, IH hchunks, hx⟩

theorem blocksBytesV_mono {d : Codec} {v w : View} (hle : ViewLE v w) :
    ∀ {idxs : List Nat} {x : List Nat},
    blocksBytesV d v idxs = some x → blocksBytesV d w idxs = some x := by
  obtain ⟨⟨u, hu⟩, -, -⟩ := hle
  intro idxs x h
  obtain ⟨chunks, hchunks, hx⟩ := Option.map_eq_some'.mp h
  rw [blocksBytesV, hu, Option.map_eq_some']
  exact ⟨chunks, decodeAll_append hchunks, hx⟩

mutual

theorem inodeGood_mono {d : Codec} {v w : View} (hle : ViewLE v w) :
    ∀ (i : Nat) (node : SNode), inodeGood d v i node → inodeGood d w i node
  | i, .file content => by
    intro hg
    obtain ⟨idxs, frag, hlook, full, hfull, hrest⟩ := hg
    obtain ⟨-, ⟨u, hu⟩, hf⟩ := id hle
    refine ⟨idxs, frag, by rw [hu]; exact getElem?_stable hlook, full,
      blocksBytesV_mono hle hfull, ?_⟩
    match frag with
    | none => exact hrest
    | some (fi, off, len) =>
      obtain ⟨hpos, hlen, hcontent⟩ := hrest
      obtain ⟨e, he⟩ := hf fi
      refine ⟨hpos, by rw [he, List.length_append]; omega, ?_⟩
      rw [he, slice_stable hlen]
      exact hcontent
  | i, .symlink tgt => by
    intro hg
    obtain ⟨-, ⟨u, hu⟩, -⟩ := hle
    rw [inodeGood] at hg ⊢
    rw [hu]
    exact getElem?_stable hg
  | i, .dir children => by
    intro hg
    obtain ⟨entries, hlook, hes⟩ := hg
    obtain ⟨-, ⟨u, hu⟩, -⟩ := id hle
    exact ⟨entries, by rw [hu]; exact getElem?_stable hlook,
      entriesGood_mono hle entries children hes⟩

theorem entriesGood_mono {d : Codec} {v w : View} (hle : ViewLE v w) :
    ∀ (es : List (String × Nat)) (children : SList),
      entriesGood d v es children → entriesGood d w es children
  | [], .nil => fun _ => trivial
  | [], .cons _ _ _ => fun hg => absurd hg (by rw [entriesGood]; exact not_false)
  | _ :: _, .nil => fun hg => absurd hg (by rw [entriesGood]; exact not_false)
  | (m, j) :: es, .cons name node rest => by
    intro hg
    obtain ⟨hm, hj, hes⟩ := hg
    exact ⟨hm, inodeGood_mono hle j node hj, entriesGood_mono hle es rest hes⟩

end

theorem decodeAll_range {d c : Codec} (hcd : ∀ b, d (c b) = b) :
    ∀ (chunks : List (List Nat)) (pre : List (Bool × List Nat)),
    decodeAll d (pre ++ chunks.map (storeBlock c))
      ((List.range chunks.length).map (fun k => pre.length + k)) = some chunks := by
  intro chunks
  induction chunks with
  | nil => intro pre; simp [decodeAll]
  | cons ch chunks IH =>
    intro pre
    rw [List.length_cons, List.range_succ_eq_map]
    simp only [List.map_cons, List.map_map]
    rw [decodeAll]
    have hhead : (pre ++ storeBlock c ch :: List.map (storeBlock c) chunks)[pre.length + 0]? =
        some (storeBlock c ch) := by
      rw [List.getElem?_append_right (by omega)]
      simp
    rw [hhead]
    have hfun : ((fun k => pre.length + k) ∘ Nat.succ) =
        (fun k => (pre ++ [storeBlock c ch]).length + k) := by
      funext k
      simp [Function.comp]
      omega
    rw [hfun]
    have hblocks : pre ++ storeBlock c ch :: List.map (storeBlock c) chunks =
        (pre ++ [storeBlock c ch]) ++ List.map (storeBlock c) chunks := by
      simp
    rw [hblocks, IH (pre ++ [storeBlock c ch])]
    simp [decode_store hcd]

theorem fragData_blocks (d : Codec) (st : FinState) (stored : List (Bool × List Nat)) :
    fragData d { st with blocks := st.blocks ++ stored } = fragData d st := rfl

theorem viewLE_blocks (d : Codec) (st : FinState) (stored : List (Bool × List Nat)) :
    ViewLE (viewOf d st) (viewOf d { st with blocks := st.blocks ++ stored }) :=
  ⟨⟨stored, rfl⟩, ⟨[], by simp [viewOf]⟩, fun fi => ⟨[], by simp [viewOf, fragData_blocks]⟩⟩

theorem viewLE_inode (d : Codec) (st : FinState) (recs : List InodeRec) :
    ViewLE (viewOf d st) (viewOf d { st with inodes := st.inodes ++ recs }) :=
  ⟨⟨[], by simp [viewOf]⟩, ⟨recs, rfl⟩, fun fi => ⟨[], by simp [viewOf]; rfl⟩⟩

theorem viewLE_bufAppend (d : Codec) (st : FinState) (tail : List Nat) :
    ViewLE (viewOf d st) (viewOf d { st with fragBuf := st.fragBuf ++ tail }) := by
  refine ⟨⟨[], by simp [viewOf]⟩, ⟨[], by simp [viewOf]⟩, fun fi => ?_⟩
  show ∃ e, fragData d { st with fragBuf := st.fragBuf ++ tail } fi = fragData d st fi ++ e
  rw [fragData, fragData]
  match hb : st.fragBlocks[fi]? with
  | some b => exact ⟨[], by simp⟩
  | none =>
    by_cases hfi : fi = st.fragBlocks.length
    · simp only [hfi, if_pos rfl]
      exact ⟨tail, rfl⟩
    · simp only [if_neg hfi]
      exact ⟨[], by simp⟩

theorem viewLE_flush {d c : Codec} (hcd : ∀ b, d (c b) = b) (st : FinState) :
    ViewLE (viewOf d st)
      (viewOf d { st with fragBlocks := st.fragBlocks ++ [storeBlock c st.fragBuf],
                          fragBuf := [] }) := by
  refine ⟨⟨[], by simp [viewOf]⟩, ⟨[], by simp [viewOf]⟩, fun fi => ?_⟩
  show ∃ e, fragData d { st with fragBlocks := _, fragBuf := [] } fi = fragData d st fi ++ e
  rw [fragData, fragData]
  rcases Nat.lt_trichotomy fi st.fragBlocks.length with hlt | heq | hgt
  · rw [List.getElem?_append_left hlt]
    match hb : st.fragBlocks[fi]? with
    | some b => exact ⟨[], by simp⟩
    | none => exact absurd hb (by simp [List.getElem?_eq_some]; omega)
  · subst heq
    rw [List.getElem?_concat_length]
    have : st.fragBlocks[st.fragBlocks.length]? = none := List.getElem?_eq_none (le_refl _)
    rw [this]
    simp [decode_store hcd]
  · have h1 : (st.fragBlocks ++ [storeBlock c st.fragBuf])[fi]? = none := by
      rw [List.getElem?_eq_none]
      simp
      omega
    have h2 : st.fragBlocks[fi]? = none := by
      rw [List.getElem?_eq_none]
      omega
    refine ⟨[], ?_⟩
    rw [h1, h2, List.append_nil]
    rw [if_neg (show ¬ fi = st.fragBlocks.length from by omega)]
    simp

theorem addFrag_spec {d c : Codec} (hcd : ∀ b, d (c b) = b) {bs : Nat} {st : FinState}
    {tail : List Nat} (htail : tail ≠ []) {st2 : FinState} {fi off len : Nat}
    (h : addFrag c bs st tail = (st2, (fi, off, len))) :
    ViewLE (viewOf d st) (viewOf d st2) ∧ st2.blocks = st.blocks ∧
    st2.inodes = st.inodes ∧ 0 < len ∧ off + len ≤ (fragData d st2 fi).length ∧
    ((fragData d st2 fi).drop off).take len = tail := by
  have hlen0 : 0 < tail.length := List.length_pos.mpr htail
  by_cases hover : bs < st.fragBuf.length + tail.length
  · simp only [addFrag, if_pos hover] at h
    injection h with hA hB
    injection hB with hB1 hB2
    injection hB2 with hB2 hB3
    subst hA hB1 hB2 hB3
    refine ⟨ViewLE.trans (viewLE_flush hcd st) (viewLE_bufAppend d _ tail),
      rfl, rfl, hlen0, ?_, ?_⟩
    · rw [fragData]
      rw [List.getElem?_eq_none (by simp)]
      rw [if_pos (by simp)]
      simp
    · rw [fragData]
      rw [List.getElem?_eq_none (by simp)]
      rw [if_pos (by simp)]
      simp
  · simp only [addFrag, if_neg hover] at h
    injection h with hA hB
    injection hB with hB1 hB2
    injection hB2 with hB2 hB3
    subst hA hB1 hB2 hB3
    refine ⟨viewLE_bufAppend d st tail, rfl, rfl, hlen0, ?_, ?_⟩
    · rw [fragData]
      rw [List.getElem?_eq_none (by simp)]
      rw [if_pos (by simp)]
      simp
    · rw [fragData]
      rw [List.getElem?_eq_none (by simp)]
      rw [if_pos (by simp)]
      simp [List.drop_left, List.take_length]

theorem fragData_inodes (d : Codec) (st : FinState) (recs : List InodeRec) :
    fragData d { st with inodes := st.inodes ++ recs } = fragData d st := rfl

mutual

theorem finNode_good {d c : Codec} (hcd : ∀ b, d (c b) = b) (bs : Nat) :
    ∀ (node : SNode) (st st2 : FinState) (i : Nat),
    finNode c bs node st = (st2, i) →
    ViewLE (viewOf d st) (viewOf d st2) ∧ inodeGood d (viewOf d st2) i node
  | .file content, st, st2, i => by
    intro h
    simp only [finNode] at h
    by_cases hz : (splitFull bs content).2.length = 0
    · rw [if_pos hz] at h
      injection h with h1 h2
      subst h1
      subst h2
      refine ⟨ViewLE.trans (viewLE_blocks d st ((splitFull bs content).1.map (storeBlock c)))
        (viewLE_inode d { st with blocks := st.blocks ++ (splitFull bs content).1.map (storeBlock c) }
          [InodeRec.fileInode ((List.range (splitFull bs content).1.length).map
            (fun k => st.blocks.length + k)) none]), ?_⟩
      simp only [inodeGood, viewOf]
      refine ⟨(List.range (splitFull bs content).1.length).map (fun k => st.blocks.length + k),
        none, ?_, (splitFull bs content).1.flatten, ?_, ?_⟩
      · exact List.getElem?_concat_length ..
      · rw [blocksBytesV]
        rw [decodeAll_range hcd (splitFull bs content).1 st.blocks]
        rfl
      · have := splitFull_flatten bs content
        have h2 : (splitFull bs content).2 = [] := List.eq_nil_of_length_eq_zero hz
        rw [h2, List.append_nil] at this
        exact this.symm
    · rw [if_neg hz] at h
      rcases haf : addFrag c bs
          { st with blocks := st.blocks ++ (splitFull bs content).1.map (storeBlock c) }
          ((splitFull bs content).2)
        with ⟨stf, fi, off, len⟩
      simp only [haf] at h
      injection h with h1 h2
      subst h1
      subst h2
      have htail : (splitFull bs content).2 ≠ [] := by
        intro hn
        exact hz (by rw [hn]; rfl)
      obtain ⟨hvle, hblocks, hinodes, hpos, hlen, hslice⟩ :=
        addFrag_spec hcd htail haf
      refine ⟨ViewLE.trans (viewLE_blocks d st ((splitFull bs content).1.map (storeBlock c)))
        (ViewLE.trans hvle (viewLE_inode d stf
          [InodeRec.fileInode ((List.range (splitFull bs content).1.length).map
            (fun k => st.blocks.length + k)) (some (fi, off, len))])), ?_⟩
      simp only [inodeGood, viewOf]
      refine ⟨(List.range (splitFull bs content).1.length).map (fun k => st.blocks.length + k),
        some (fi, off, len), ?_, (splitFull bs content).1.flatten, ?_, ?_, ?_, ?_⟩
      · exact List.getElem?_concat_length ..
      · rw [blocksBytesV]
        show (decodeAll d stf.blocks _).map List.flatten = _
        rw [hblocks]
        show (decodeAll d (st.blocks ++ (splitFull bs content).1.map (storeBlock c)) _).map
          List.flatten = _
        rw [decodeAll_range hcd (splitFull bs content).1 st.blocks]
        rfl
      · exact hpos
      · show off + len ≤ (fragData d stf fi).length
        exact hlen
      · show content = _ ++ ((fragData d stf fi).drop off).take len
        rw [hslice]
        exact (splitFull_flatten bs content).symm
  | .symlink tgt, st, st2, i => by
    intro h
    simp only [finNode] at h
    injection h with h1 h2
    subst h1
    subst h2
    refine ⟨viewLE_inode d st [InodeRec.symlinkInode tgt], ?_⟩
    simp only [inodeGood, viewOf]
    exact List.getElem?_concat_length ..
  | .dir children, st, st2, i => by
    intro h
    simp only [finNode] at h
    rcases hfl : finList c bs children st with ⟨st1, es⟩
    simp only [hfl] at h
    injection h with h1 h2
    subst h1
    subst h2
    obtain ⟨hvle, hes⟩ := finList_good hcd bs children st st1 es hfl
    refine ⟨ViewLE.trans hvle (viewLE_inode d st1 [InodeRec.dirInode es]), ?_⟩
    simp only [inodeGood, viewOf]
    refine ⟨es, ?_, ?_⟩
    · exact List.getElem?_concat_length ..
    · exact entriesGood_mono (viewLE_inode d st1 [InodeRec.dirInode es]) es children hes

theorem finList_good {d c : Codec} (hcd : ∀ b, d (c b) = b) (bs : Nat) :
    ∀ (children : SList) (st st2 : FinState) (es : List (String × Nat)),
    finList c bs children st = (st2, es) →
    ViewLE (viewOf d st) (viewOf d st2) ∧ entriesGood d (viewOf d st2) es children
  | .nil, st, st2, es => by
    intro h
    simp only [finList] at h
    injection h with h1 h2
    subst h1
    subst h2
    exact ⟨ViewLE.refl _, trivial⟩
  | .cons name node rest, st, st2, es => by
    intro h
    simp only [finList] at h
    rcases hfn : finNode c bs node st with ⟨stA, j⟩
    rcases hfl : finList c bs rest stA with ⟨stB, es1⟩
    simp only [hfn, hfl] at h
    injection h with h1 h2
    subst h1
    subst h2
    obtain ⟨hvA, hgA⟩ := finNode_good hcd bs node st stA j hfn
    obtain ⟨hvB, hgB⟩ := finList_good hcd bs rest stA stB es1 hfl
    refine ⟨ViewLE.trans hvA hvB, ?_⟩
    simp only [entriesGood]
    exact ⟨by trivial, inodeGood_mono hvB j node hgA, hgB⟩

end

theorem viewLE_finImage {d c : Codec} (hcd : ∀ b, d (c b) = b) (st : FinState) (i : Nat) :
    ViewLE (viewOf d st)
      (viewOfImage d ⟨st.blocks,
        if st.fragBuf.length = 0 then st.fragBlocks
        else st.fragBlocks ++ [storeBlock c st.fragBuf], st.inodes, i⟩) := by
  refine ⟨⟨[], by simp [viewOf, viewOfImage]⟩, ⟨[], by simp [viewOf, viewOfImage]⟩, fun fi => ?_⟩
  simp only [viewOfImage, viewOf]
  by_cases hbuf : st.fragBuf.length = 0
  · rw [if_pos hbuf]
    have hnil : st.fragBuf = [] := List.eq_nil_of_length_eq_zero hbuf
    rcases hb : st.fragBlocks[fi]? with _ | b
    · refine ⟨[], ?_⟩
      rw [fragData, hb, List.append_nil, hnil]
      simp
    · exact ⟨[], by rw [fragData, hb, List.append_nil]⟩
  · rw [if_neg hbuf]
    rcases Nat.lt_trichotomy fi st.fragBlocks.length with hlt | heq | hgt
    · rw [List.getElem?_append_left hlt]
      rcases hb : st.fragBlocks[fi]? with _ | b
      · exact absurd hb (by simp [List.getElem?_eq_some]; omega)
      · exact ⟨[], by rw [fragData, hb, List.append_nil]⟩
    · subst heq
      rw [List.getElem?_concat_length]
      refine ⟨[], ?_⟩
      rw [fragData, List.getElem?_eq_none (le_refl _), if_pos rfl, List.append_nil]
      exact decode_store hcd st.fragBuf
    · have h1 : (st.fragBlocks ++ [storeBlock c st.fragBuf])[fi]? = none := by
        rw [List.getElem?_eq_none]
        simp
        omega
      refine ⟨[], ?_⟩
      rw [h1, fragData, List.getElem?_eq_none (by omega), if_neg (by omega), List.append_nil]

theorem entriesGood_names {d : Codec} {v : View} :
    ∀ {es : List (String × Nat)} {children : SList},
    entriesGood d v es children → es.map Prod.fst = namesOfS children := by
  intro es
  induction es with
  | nil =>
    intro children h
    cases children with
    | nil => simp [namesOfS]
    | cons name node rest => exact absurd h (by rw [entriesGood]; exact not_false)
  | cons e es IH =>
    intro children h
    obtain ⟨nm, j⟩ := e
    cases children with
    | nil => exact absurd h (by rw [entriesGood]; exact not_false)
    | cons name node rest =>
      obtain ⟨hm, hj, hes⟩ := h
      simp [namesOfS, hm, IH hes]

theorem entriesGood_lookup {d : Codec} {v : View} :
    ∀ {es : List (String × Nat)} {children : SList},
    entriesGood d v es children →
    ∀ {n : String} {m : SNode}, findS n children = some m →
    ∃ j, List.lookup n es = some j ∧ inodeGood d v j m := by
  intro es
  induction es with
  | nil =>
    intro children h n m hf
    cases children with
    | nil => rw [findS] at hf; exact absurd hf (by simp)
    | cons name node rest => exact absurd h (by rw [entriesGood]; exact not_false)
  | cons e es IH =>
    intro children h n m hf
    obtain ⟨nm, j⟩ := e
    cases children with
    | nil => exact absurd h (by rw [entriesGood]; exact not_false)
    | cons name node rest =>
      obtain ⟨hm, hj, hes⟩ := h
      subst hm
      rw [findS] at hf
      by_cases hn : nm = n
      · rw [if_pos hn] at hf
        injection hf with hf
        subst hf
        refine ⟨j, ?_, hj⟩
        rw [List.lookup_cons]
        simp [hn]
      · rw [if_neg hn] at hf
        obtain ⟨j2, hl, hg⟩ := IH hes hf
        refine ⟨j2, ?_, hg⟩
        rw [List.lookup_cons]
        have hne : (n == nm) = false := by
          simp
          exact fun h2 => hn h2.symm
        rw [hne]
        exact hl

theorem resolve_good {d : Codec} {img : Image} :
    ∀ (p : List String) {i : Nat} {node : SNode},
    inodeGood d (viewOfImage d img) i node →
    ∀ {m : SNode}, lookupS node p = some m →
    ∃ j, resolveInode img i p = some j ∧ inodeGood d (viewOfImage d img) j m := by
  intro p
  induction p with
  | nil =>
    intro i node hg m hl
    rw [lookupS] at hl
    injection hl with hl
    subst hl
    exact ⟨i, rfl, hg⟩
  | cons n rest IH =>
    intro i node hg m hl
    cases node with
    | file content => rw [lookupS] at hl; exact absurd hl (by simp)
    | symlink tgt => rw [lookupS] at hl; exact absurd hl (by simp)
    | dir children =>
      rw [lookupS] at hl
      obtain ⟨mid, hfind, hrest⟩ := Option.bind_eq_some.mp hl
      obtain ⟨entries, hlook, hes⟩ := hg
      simp only [viewOfImage] at hlook
      obtain ⟨j1, hl1, hg1⟩ := entriesGood_lookup hes hfind
      obtain ⟨j2, hr2, hg2⟩ := IH hg1 hrest
      refine ⟨j2, ?_, hg2⟩
      simp only [resolveInode, hlook, hl1]
      exact hr2

/-- C6: finalize/read round trip — for any staged tree of directories, files
(including empty files and files spanning many full blocks plus a trailing
fragment) and symlinks, finalizing the tree into an image and then reading
that image back yields, at every path: for a directory the identical set of
entry names (up to order), for a file the identical byte content, and for a
symlink the identical target string, provided decompression inverts
compression. -/
theorem claim_C6_roundtrip {c d : Codec} (hcd : ∀ b, d (c b) = b) (bs : Nat)
    (root : SNode) (p : List String) :
    (∀ children, lookupS root p = some (.dir children) →
      ∃ ns, readDirNames (finalize c bs root) p = some ns ∧
        ns.Perm (namesOfS children)) ∧
    (∀ content, lookupS root p = some (.file content) →
      readFileContent d (finalize c bs root) p = some content) ∧
    (∀ tgt, lookupS root p = some (.symlink tgt) →
      readLinkTarget (finalize c bs root) p = some tgt) := by
  rcases hr : finNode c bs root ⟨[], [], [], []⟩ with ⟨stF, iF⟩
  obtain ⟨-, hgood⟩ := finNode_good hcd bs root ⟨[], [], [], []⟩ stF iF hr
  have himg : finalize c bs root = ⟨stF.blocks,
      if stF.fragBuf.length = 0 then stF.fragBlocks
      else stF.fragBlocks ++ [storeBlock c stF.fragBuf], stF.inodes, iF⟩ := by
    simp only [finalize, hr]
  have hle : ViewLE (viewOf d stF) (viewOfImage d (finalize c bs root)) := by
    rw [himg]
    exact viewLE_finImage hcd stF iF
  have hroot : inodeGood d (viewOfImage d (finalize c bs root)) iF root :=
    inodeGood_mono hle iF root hgood
  have hrIdx : (finalize c bs root).rootInode = iF := by rw [himg]
  refine ⟨?_, ?_, ?_⟩
  · intro children hl
    obtain ⟨j, hres, hg⟩ := resolve_good p hroot hl
    obtain ⟨entries, hlk, hes⟩ := hg
    simp only [viewOfImage] at hlk
    refine ⟨entries.map Prod.fst, ?_, ?_⟩
    · rw [readDirNames, hrIdx, hres]
      simp only [Option.some_bind, hlk]
    · rw [entriesGood_names hes]
  · intro content hl
    obtain ⟨j, hres, hg⟩ := resolve_good p hroot hl
    obtain ⟨idxs, frag, hlk, full, hfull, hrest⟩ := hg
    simp only [viewOfImage] at hlk
    rw [blocksBytesV] at hfull
    obtain ⟨chunks, hchunks, hflat⟩ := Option.map_eq_some'.mp hfull
    simp only [viewOfImage] at hchunks
    rw [readFileContent, hrIdx, hres]
    simp only [Option.some_bind, hlk, hchunks]
    rcases frag with _ | ⟨fi, off, len⟩
    · simp only []
      rw [hflat, hrest]
    · simp only [viewOfImage] at hrest
      obtain ⟨hpos, hlen, hcontent⟩ := hrest
      rcases hfb : (finalize c bs root).fragBlocks[fi]? with _ | b
      · rw [hfb] at hlen
        simp at hlen
        omega
      · rw [hfb] at hlen hcontent
        simp only [hfb, Option.map_some']
        rw [hflat, hcontent]
  · intro tgt hl
    obtain ⟨j, hres, hg⟩ := resolve_good p hroot hl
    rw [inodeGood] at hg
    simp only [viewOfImage] at hg
    rw [readLinkTarget, hrIdx, hres]
    simp only [Option.some_bind, hg]

theorem claim_C6_witness :
    (∀ b : List Nat, (fun x : List Nat => x) ((fun x : List Nat => x) b) = b) ∧
    (∃ ns, readDirNames (finalize (fun x => x) 4 demoTree) ["sub"] = some ns ∧
      ns.Perm (namesOfS (.cons "small" (.file [10,11]) .nil))) ∧
    readFileContent (fun x => x) (finalize (fun x => x) 4 demoTree) ["big"] =
      some [1,2,3,4,5,6,7,8,9] ∧
    readLinkTarget (finalize (fun x => x) 4 demoTree) ["link"] = some "big" :=
  ⟨fun _ => rfl,
   (claim_C6_roundtrip (fun _ => rfl) 4 demoTree ["sub"]).1
     (.cons "small" (.file [10,11]) .nil) rfl,
   (claim_C6_roundtrip (fun _ => rfl) 4 demoTree ["big"]).2.1 [1,2,3,4,5,6,7,8,9] rfl,
   (claim_C6_roundtrip (fun _ => rfl) 4 demoTree ["link"]).2.2 "big" rfl⟩

end GoDiskfs
